import Mathlib

/-! Installer command line parser (`tools/installer/main.cpp`).

A shallow embedding of the option table, the alias index,
`parse_command_line` and `rmain`, followed by theorems about them.

Modelling conventions.
* A `std::string` is a Lean `String`, read as the sequence of its characters
  (one `Char` for one `char`); `size()` is the length of that sequence.
* The `int` variables `i`, `_nargs` and the values returned by the lambdas are
  unbounded integers; `i` only counts upwards from `1`, so it is a `Nat`.
* A `const option_spec*` into `defined_options` is an `option_ptr`: the index of
  the element pointed to (the address) together with the element itself.
* A `std::unordered_map` is an association list that holds every key at most
  once; `umap_insert` is `insert` (the pair is added only when the key is
  absent) and `umap_find` is `find`.  Iteration order is never observed.
* Standard output is the list of lines printed so far.
* `exit(code)` ends the run with `Outcome.exited code`; reading `_args[k]`
  with `k` outside the vector is undefined behaviour in the source and ends
  the run with `Outcome.out_of_bounds k`.
* The option table is a parameter of the parser, so that statements about
  arbitrary tables can be made; the table of the program is `defined_options`.
-/

namespace Installer

/-- The struct `option_arg_spec`. -/
structure option_arg_spec where
  name : String
  required : Bool := true
deriving DecidableEq, Repr

/-- The struct `option_spec`. -/
structure option_spec where
  full_name : String := ""
  description : String := ""
  names : List String := []
  args : List option_arg_spec := []
deriving DecidableEq, Repr

/-- A `const option_spec*` that points into the option table: the index of the
pointee in the table (its identity) and the pointee. -/
structure option_ptr where
  addr : Nat
  spec : option_spec
deriving DecidableEq, Repr

/-- The global `defined_options`. -/
def defined_options : List option_spec :=
  [ { full_name := "minimal install",
      description := "prevents installing of documentation or other non-essential files",
      names := ["-m", "--minimal"] },
    { full_name := "echo",
      description := "prints the command that was used to invoke the program",
      names := ["-e", "--echo"] },
    { full_name := "help",
      description := "prints the help message",
      names := ["-h", "--help"] },
    { full_name := "verbose",
      description := "prints messages more frequently and with higher detail",
      names := ["-v", "--verbose"] },
    { full_name := "debug-ignored",
      description := "prints debug messages when ignoring files / directories",
      names := ["--debug-ignored"] } ]

/-- The member `find` of `std::unordered_map`. -/
def umap_find {κ α : Type} [DecidableEq κ] : List (κ × α) → κ → Option α
  | [], _ => none
  | (k', v) :: m, k => if k' = k then some v else umap_find m k

/-- The member `insert` of `std::unordered_map`: the pair is added only when
no element with that key exists. -/
def umap_insert {κ α : Type} [DecidableEq κ] (m : List (κ × α)) (k : κ) (v : α) :
    List (κ × α) :=
  match umap_find m k with
  | some _ => m
  | none => m ++ [(k, v)]

/-- The inner loop of the `option_names` initialiser, for one option `v`
stored at index `addr`. -/
def option_names_inner (addr : Nat) (v : option_spec) :
    List String → List (String × option_ptr) → List (String × option_ptr)
  | [], _names => _names
  | n :: ns, _names =>
    option_names_inner addr v ns (umap_insert _names n { addr := addr, spec := v })

/-- The outer loop of the `option_names` initialiser; `addr` is the index of
the first option of the remaining range. -/
def option_names_outer :
    Nat → List option_spec → List (String × option_ptr) → List (String × option_ptr)
  | _, [], _names => _names
  | addr, v :: vs, _names =>
    option_names_outer (addr + 1) vs (option_names_inner addr v v.names _names)

/-- The initialiser of the global `option_names`, for an arbitrary table. -/
def build_option_names (table : List option_spec) : List (String × option_ptr) :=
  option_names_outer 0 table []

/-- The global `option_names`. -/
def option_names : List (String × option_ptr) :=
  build_option_names defined_options

/-- The function `println_err`: one line on standard output. -/
def println_err (msg : String) : String :=
  "ERROR : " ++ msg

/-- The call `s.starts_with(p)` of `std::string`. -/
def starts_with (s p : String) : Bool :=
  p.data.isPrefixOf s.data

/-- The mutable state of `parse_command_line`: the loop index `i`, the map
`options`, the vector `arguements`, and the lines printed so far. -/
structure parse_state where
  i : Nat
  options : List (Nat × List String)
  arguements : List String
  out : List String
deriving DecidableEq, Repr

/-- What a lambda call leaves behind: it returned an `int` in a state, or it
read `_args` out of bounds. -/
inductive call_result where
  | ret (value : Int) (s : parse_state)
  | out_of_bounds (index : Nat) (s : parse_state)
deriving DecidableEq, Repr

/-- How a run of `parse_command_line` ends. -/
inductive Outcome where
  | returned (arguements : List String) (options : List (Nat × List String))
      (out : List String)
  | exited (status : Int) (out : List String)
  | out_of_bounds (index : Nat) (out : List String)
  | out_of_fuel
deriving DecidableEq, Repr

/-- The lambda `setopt`. -/
def setopt (s : parse_state) (_option : option_ptr) (_args : List String) : parse_state :=
  { s with options := umap_insert s.options _option.addr _args }

/-- The lambda `next`: increments `i` and returns `-1`, `0` or the new `i`. -/
def next (_nargs : Nat) (_gotName : String) (s : parse_state) (_arg : option_arg_spec) :
    Int × parse_state :=
  let s1 := { s with i := s.i + 1 }
  if s1.i = _nargs then
    if _arg.required then
      (-1, { s1 with out := s1.out ++
        [println_err ("missing required argument \"" ++ _arg.name ++
          "\" for option \"" ++ _gotName ++ "\"")] })
    else
      (0, s1)
  else
    ((s1.i : Int), s1)

/-- The `for (auto& a : _option.args)` loop of `readopt` followed by the
`setopt` call and `return 0`; `_optionArgs` is the vector collected so far. -/
def readopt_loop (_args : List String) (_option : option_ptr) (_gotName : String) :
    List option_arg_spec → List String → parse_state → call_result
  | [], _optionArgs, s => .ret 0 (setopt s _option _optionArgs)
  | a :: rest, _optionArgs, s =>
    match next _args.length _gotName s a with
    | (_good, s1) =>
      if _good > 0 then
        match _args[_good.toNat]? with
        | some v => readopt_loop _args _option _gotName rest (_optionArgs ++ [v]) s1
        | none => .out_of_bounds _good.toNat s1
      else if _good = 0 then
        .ret 0 (setopt s1 _option _optionArgs)
      else
        .ret (-1) { s1 with out := s1.out ++
          [println_err ("failed to parse option \"" ++ _gotName ++ "\"")] }

/-- The lambda `readopt`. -/
def readopt (_args : List String) (_option : option_ptr) (_gotName : String)
    (s : parse_state) : call_result :=
  readopt_loop _args _option _gotName _option.spec.args [] s

/-- The lambda `parseopt`, with the alias index passed in. -/
def parseopt (names : List (String × option_ptr)) (_args : List String)
    (_gotName : String) (s : parse_state) : call_result :=
  match umap_find names _gotName with
  | some it => readopt _args it _gotName s
  | none =>
    .ret (-1) { s with out := s.out ++
      [println_err ("unrecognized option \"" ++ _gotName ++ "\"")] }

/-- The loop over the characters of a bundled token.  A non-zero `_result` of
`parseopt` leaves the loop with that value: the source calls `exit(_result)`
there, which `scan` does with the value handed back. -/
def bundle_loop (names : List (String × option_ptr)) (_args : List String) :
    List Char → parse_state → call_result
  | [], s => .ret 0 s
  | c :: cs, s =>
    match parseopt names _args (String.mk ['-', c]) s with
    | .ret _result s1 =>
      if _result ≠ 0 then .ret _result s1 else bundle_loop names _args cs s1
    | .out_of_bounds k s1 => .out_of_bounds k s1

/-- The body of the scan loop of `parse_command_line` for the current `i`. -/
def scan_body (names : List (String × option_ptr)) (_args : List String)
    (s : parse_state) : call_result :=
  match _args[s.i]? with
  | none => .out_of_bounds s.i s
  | some _arg =>
    if starts_with _arg "--" then
      parseopt names _args _arg s
    else if starts_with _arg "-" then
      if _arg.data.length = 2 then
        parseopt names _args _arg s
      else
        bundle_loop names _args _arg.data.tail s
    else
      .ret 0 { s with arguements := s.arguements ++ [_arg] }

/-- The scan loop `for (...; i != _nargs; ++i)` from the state `s`, followed
by the `return` of `parse_command_line`.  Every iteration costs one unit of
fuel. -/
def scan (names : List (String × option_ptr)) (_args : List String) :
    Nat → parse_state → Outcome
  | 0, _ => .out_of_fuel
  | fuel + 1, s =>
    if s.i ≠ _args.length then
      match scan_body names _args s with
      | .ret _result s1 =>
        if _result ≠ 0 then .exited _result s1.out
        else scan names _args fuel { s1 with i := s1.i + 1 }
      | .out_of_bounds k s1 => .out_of_bounds k s1.out
    else
      .returned s.arguements s.options s.out

/-- The state in which the scan loop of `parse_command_line` is entered. -/
def initial_state (_args : List String) : parse_state :=
  { i := 1
    options := []
    arguements := []
    out := if _args.length = 1 then ["use -h or --help for help"] else [] }

/-- The function `parse_command_line`, for an arbitrary option table.  The
fuel `_args.length + 1` is never used up (`parse_table_fuel`). -/
def parse_table (table : List option_spec) (_args : List String) : Outcome :=
  scan (build_option_names table) _args (_args.length + 1) (initial_state _args)

/-- The function `parse_command_line` of the program. -/
def parse_command_line (_args : List String) : Outcome :=
  parse_table defined_options _args

/-! ## Notions used to state the properties -/

/-- The alias candidates of one token of `argv[1:]`: the whole token when it
starts with `--` or is a two-character token starting with `-`, and `-c` for
every character `c` after the leading `-` of any other token starting with
`-`.  A token that does not start with `-` has none. -/
def alias_candidates (tok : String) : List String :=
  if starts_with tok "--" then [tok]
  else if starts_with tok "-" then
    if tok.data.length = 2 then [tok]
    else tok.data.tail.map (fun c => String.mk ['-', c])
  else []

/-- The alias candidates of a list of tokens, in left-to-right scan order. -/
def all_candidates (toks : List String) : List String :=
  toks.flatMap alias_candidates

/-- The first alias candidate of a list of tokens, in left-to-right scan
order, that is not a key of the alias index. -/
def first_unknown (names : List (String × option_ptr)) (toks : List String) :
    Option String :=
  (all_candidates toks).find? (fun g => (umap_find names g).isNone)

/-- The line printed for an unrecognized option. -/
def unrecognized_line (g : String) : String :=
  println_err ("unrecognized option \"" ++ g ++ "\"")

/-- The calls `parseopt(g)` for the aliases `g` of a list, in order, up to the
first one that does not return `0`. -/
def parse_all (names : List (String × option_ptr)) (_args : List String) :
    List String → parse_state → call_result
  | [], s => .ret 0 s
  | g :: gs, s =>
    match parseopt names _args g s with
    | .ret _result s1 =>
      if _result ≠ 0 then .ret _result s1 else parse_all names _args gs s1
    | .out_of_bounds k s1 => .out_of_bounds k s1

/-- The map `options` after `setopt(o, {})` for every alias of the list that
the index knows, in order. -/
def record_all (names : List (String × option_ptr)) :
    List String → List (Nat × List String) → List (Nat × List String)
  | [], m => m
  | g :: gs, m =>
    match umap_find names g with
    | some it => record_all names gs (umap_insert m it.addr [])
    | none => record_all names gs m

/-- Every option the index points to declares no sub-argument. -/
def zero_arg_index (names : List (String × option_ptr)) : Prop :=
  ∀ g it, umap_find names g = some it → it.spec.args = []

/-- The line printed by `next` for a missing required argument. -/
def missing_line (slot g : String) : String :=
  println_err ("missing required argument \"" ++ slot ++ "\" for option \"" ++ g ++ "\"")

/-- The line printed by `readopt` after `next` has returned `-1`. -/
def failed_line (g : String) : String :=
  println_err ("failed to parse option \"" ++ g ++ "\"")

/-- A token that the scan loop passes to `parseopt` as a whole: it starts with
`--`, or it starts with `-` and has two characters. -/
def whole_alias (tok : String) : Prop :=
  starts_with tok "--" = true ∨ (starts_with tok "-" = true ∧ tok.length = 2)

/-- What a call of `readopt`, `parseopt` or of the loop body started in state
`s` guarantees about its result: `i` does not decrease and no entry of
`options` is changed; on `0` nothing is printed; any other value is `-1`, and
then either the unrecognized-option line or the two lines of a missing
required argument have been printed. -/
def call_ok (s : parse_state) : call_result → Prop
  | .ret v s1 =>
    s.i ≤ s1.i ∧
    (∀ k x, umap_find s.options k = some x → umap_find s1.options k = some x) ∧
    ((v = 0 ∧ s1.out = s.out) ∨
      (v = -1 ∧ ((∃ g, s1.out = s.out ++ [unrecognized_line g]) ∨
        (∃ slot g, s1.out = s.out ++ [missing_line slot g, failed_line g]))))
  | .out_of_bounds _ s1 => s1.out = s.out

/-- The states in which the scan loop of `parse_table table _args` tests its
condition `i != _nargs`: the initial state, and the state after `++i` that
follows every iteration whose body did not call `exit`. -/
inductive loop_head (table : List option_spec) (_args : List String) : parse_state → Prop where
  | start : loop_head table _args (initial_state _args)
  | step (s s1 : parse_state) : loop_head table _args s → s.i ≠ _args.length →
      scan_body (build_option_names table) _args s = .ret 0 s1 →
      loop_head table _args { s1 with i := s1.i + 1 }

/-- A table with the single option `-a`, which has one required slot `x`. -/
def table_required : List option_spec :=
  [ { full_name := "a", names := ["-a"], args := [ { name := "x" } ] } ]

/-- A table with the single option `--set`, which has two required slots. -/
def table_pair : List option_spec :=
  [ { full_name := "set", names := ["--set"],
      args := [ { name := "key" }, { name := "value" } ] } ]

/-- A table with the single option `-a`, which has one optional slot `x`. -/
def table_optional : List option_spec :=
  [ { full_name := "a", names := ["-a"], args := [ { name := "x", required := false } ] } ]

/-- A table with the option `-a`, which has one optional slot `x`, and the
option `-b`, which has one required slot `y`. -/
def table_mixed : List option_spec :=
  [ { full_name := "a", names := ["-a"], args := [ { name := "x", required := false } ] },
    { full_name := "b", names := ["-b"], args := [ { name := "y" } ] } ]

/-- The first option of a table, counted from index `addr`, that declares the
alias `g`, as a pointer; `none` when no option declares it. -/
def first_owner : Nat → List option_spec → String → Option option_ptr
  | _, [], _ => none
  | addr, v :: vs, g =>
    if g ∈ v.names then some { addr := addr, spec := v } else first_owner (addr + 1) vs g

/-- A table in which the alias `-x` is declared by two different options. -/
def table_duplicate : List option_spec :=
  [ { full_name := "first", names := ["-x"] },
    { full_name := "second", names := ["-x", "--second"] } ]

/-- The scan loop of `scan` once more, returning what `scan` does not show:
the number of iterations started and the value of `i` when the loop is left
(through its condition, through `exit`, or at an out-of-bounds read). -/
def scan_trace (names : List (String × option_ptr)) (_args : List String) :
    Nat → parse_state → Nat × Nat
  | 0, s => (0, s.i)
  | fuel + 1, s =>
    if s.i ≠ _args.length then
      match scan_body names _args s with
      | .ret _result s1 =>
        if _result ≠ 0 then (1, s1.i)
        else
          ((scan_trace names _args fuel { s1 with i := s1.i + 1 }).1 + 1,
            (scan_trace names _args fuel { s1 with i := s1.i + 1 }).2)
      | .out_of_bounds _ s1 => (1, s1.i)
    else
      (0, s.i)

/-- The lines a run has printed when it ends. -/
def Outcome.printed : Outcome → List String
  | .returned _ _ out => out
  | .exited _ out => out
  | .out_of_bounds _ out => out
  | .out_of_fuel => []

/-- A table with the option `-a`, which has one required slot `x`, and the
option `-b`, which has no slot. -/
def table_bundle : List option_spec :=
  [ { full_name := "a", names := ["-a"], args := [ { name := "x" } ] },
    { full_name := "b", names := ["-b"] } ]

/-! ## `rmain`

The file system is outside the program: what its queries answer is given by an
`fs_env`, and what the program asks it to do is recorded as a list of
`fs_action`.  The macro `OS_SOURCE` is a field of the environment.  The
standard output of `rmain` is the list of the strings written; the lines
printed by `parse_command_line` come first, each with its newline. -/

/-- The function `println`, for text already formatted: the text and a
newline. -/
def println (text : String) : String :=
  text ++ "\n"

/-- The result of `std::format(fmt)` without arguments for a format string
that is only known at run time, on the characters of the string: two opening
braces give one, two closing braces give one, and any other brace makes
`std::format` throw `std::format_error` (`none`). -/
def format_chars : List Char → Option (List Char)
  | [] => some []
  | [c] => if c = Char.ofNat 123 ∨ c = Char.ofNat 125 then none else some [c]
  | c :: d :: rest =>
    if c = Char.ofNat 123 then
      if d = Char.ofNat 123 then (format_chars rest).map (fun r => c :: r) else none
    else if c = Char.ofNat 125 then
      if d = Char.ofNat 125 then (format_chars rest).map (fun r => c :: r) else none
    else (format_chars (d :: rest)).map (fun r => c :: r)

/-- The call `std::format(_fmt)` of `println(_fmt)` when `_fmt` is a string
built at run time. -/
def format_plain (_fmt : String) : Option String :=
  (format_chars _fmt.data).map String.mk

/-- The test `s.find(p) != std::string::npos`. -/
def contains_substring (s p : String) : Bool :=
  s.data.tails.any (fun t => p.data.isPrefixOf t)

/-- One element yielded by `fs::recursive_directory_iterator`, with what the
path queries of the loop body answer for it. -/
structure fs_entry where
  source_path : String
  relative : String
  filename : String
  extension : String
  is_directory : Bool
deriving DecidableEq, Repr

/-- The answers of the file system to the queries of `rmain`. -/
structure fs_env where
  os_source : String
  current_path : String
  absolute : String → String
  path_exists : String → Bool
  path_filename : String → String
  path_append : String → String → String
  tree : List fs_entry
  create_directory_error : String → Option String
  copy_file_error : String → String → Option String

/-- What `rmain` asks the file system to do. -/
inductive fs_action where
  | traverse (root : String)
  | create_directory (path : String)
  | copy_file (source dest : String)
deriving DecidableEq, Repr

/-- How a run of `rmain` ends: it returns a status, `parse_command_line` calls
`exit` or reads out of bounds, or an exception leaves `rmain`. -/
inductive run_result where
  | returned (status : Int) (out : List String) (actions : List fs_action)
  | exited (status : Int) (out : List String)
  | out_of_bounds (index : Nat) (out : List String)
  | threw (what : String) (out : List String) (actions : List fs_action)
  | out_of_fuel
deriving DecidableEq, Repr

/-- The call `_options.contains(option_names.at(name))`; `none` when `at`
throws `std::out_of_range`. -/
def options_contains_at (_options : List (Nat × List String)) (name : String) : Option Bool :=
  match umap_find option_names name with
  | some p => some (umap_find _options p.addr).isSome
  | none => none

/-- The strings written by the help branch of `rmain` for one option. -/
def help_lines (v : option_spec) : List String :=
  (match v.names with
    | [] => []
    | _name :: more => _name :: more.map (fun n => ", " ++ n)) ++
  ["\t"] ++
  v.args.map (fun a => if a.required then " " ++ a.name else " [" ++ a.name ++ "]") ++
  [println ("\n\t   " ++ v.description ++ "\n")]

/-- The `.lua` part of the file branch of the copy loop. -/
def install_file (env : fs_env) (_verbose : Bool) (v : fs_entry) (_destPath : String) :
    List String × List fs_action :=
  if v.extension = ".lua" then
    ((if _verbose then [println (v.source_path ++ " -> " ++ _destPath)] else []) ++
      (match env.copy_file_error v.source_path _destPath with
        | some message => [println (println_err message)]
        | none => []),
      [.copy_file v.source_path _destPath])
  else
    ([], [])

/-- The body of the copy loop of `rmain` for one element: what it writes and
what it asks the file system to do. -/
def install_entry (env : fs_env) (_buildRoot : String)
    (_verbose _debugIgnored _minimal : Bool) (v : fs_entry) : List String × List fs_action :=
  let _destPath := env.path_append _buildRoot v.relative
  if v.is_directory then
    if !starts_with v.filename "." then
      ((if _verbose then [println (v.source_path ++ " -> " ++ _destPath)] else []) ++
        (match env.create_directory_error _destPath with
          | some message => [println (println_err message)]
          | none => []),
        [.create_directory _destPath])
    else
      (if _debugIgnored then [println ("ignored " ++ v.source_path)] else [], [])
  else
    if _minimal then
      if contains_substring v.filename ".doc" then
        (if _debugIgnored then [println ("ignored " ++ v.source_path)] else [], [])
      else
        install_file env _verbose v _destPath
    else
      install_file env _verbose v _destPath

/-- The copy loop of `rmain` over the elements the iterator yields. -/
def install_loop (env : fs_env) (_buildRoot : String)
    (_verbose _debugIgnored _minimal : Bool) :
    List fs_entry → List String → List fs_action → List String × List fs_action
  | [], out, actions => (out, actions)
  | v :: vs, out, actions =>
    install_loop env _buildRoot _verbose _debugIgnored _minimal vs
      (out ++ (install_entry env _buildRoot _verbose _debugIgnored _minimal v).1)
      (actions ++ (install_entry env _buildRoot _verbose _debugIgnored _minimal v).2)

/-- The install root chosen by `rmain` and the output after the check that it
exists. -/
def install_root (env : fs_env) (_arguements : List String) (out : List String) :
    String × List String :=
  match _arguements with
  | [] => (env.current_path, out)
  | first :: _ =>
    if !env.path_exists (env.absolute first) then
      (env.absolute first,
        out ++ [println (println_err ("specified install root \"" ++ env.absolute first ++
          "\" does not exist"))])
    else
      (env.absolute first, out)

/-- The string `_argstr` of the echo branch of `rmain`. -/
def echo_string (env : fs_env) (_args : List String) : String :=
  (_args.drop 1).foldl (fun _argstr v => _argstr ++ " " ++ v)
    (env.path_filename (_args.headD ""))

/-- The part of `rmain` from the help branch on. -/
def rmain_help_install (env : fs_env) (_options : List (Nat × List String))
    (_buildRoot : String) (_verbose _debugIgnored _minimal : Bool) (out : List String) :
    run_result :=
  match options_contains_at _options "--help" with
  | none => .threw "out_of_range" out []
  | some true =>
    .returned 0
      (out ++ [println "usage:\n\t[install/root/path] [options]", println "\noptions:"] ++
        defined_options.flatMap help_lines) []
  | some false =>
    .returned 0
      (install_loop env _buildRoot _verbose _debugIgnored _minimal env.tree out
        [.traverse env.os_source]).1
      (install_loop env _buildRoot _verbose _debugIgnored _minimal env.tree out
        [.traverse env.os_source]).2

/-- The part of `rmain` after `parse_command_line` has returned. -/
def rmain_after_parse (env : fs_env) (_args _arguements : List String)
    (_options : List (Nat × List String)) (out : List String) : run_result :=
  match options_contains_at _options "--verbose", options_contains_at _options "--debug-ignored",
    options_contains_at _options "--minimal" with
  | some _verbose, some _debugIgnored, some _minimal =>
    let _buildRoot := (install_root env _arguements out).1
    let out1 := (install_root env _arguements out).2
    let out2 := if _verbose then out1 ++ [println ("set install root to " ++ _buildRoot)] else out1
    match options_contains_at _options "--echo" with
    | none => .threw "out_of_range" out2 []
    | some true =>
      match format_plain (echo_string env _args) with
      | none => .threw "format_error" out2 []
      | some text =>
        rmain_help_install env _options _buildRoot _verbose _debugIgnored _minimal
          (out2 ++ [println text])
    | some false =>
      rmain_help_install env _options _buildRoot _verbose _debugIgnored _minimal out2
  | _, _, _ => .threw "out_of_range" out []

/-- The function `rmain`. -/
def rmain (env : fs_env) (_args : List String) : run_result :=
  match parse_command_line _args with
  | .returned _arguements _options out =>
    rmain_after_parse env _args _arguements _options (out.map println)
  | .exited status out => .exited status (out.map println)
  | .out_of_bounds index out => .out_of_bounds index (out.map println)
  | .out_of_fuel => .out_of_fuel

/-- Whether an action is a call of `fs::copy_file`. -/
def fs_action.is_copy : fs_action → Bool
  | .copy_file _ _ => true
  | _ => false

/-- A file system with the source tree `/src` that holds a directory, two
`.lua` files (one of them documentation) and a text file. -/
def example_env : fs_env :=
  { os_source := "/src"
    current_path := "/cwd"
    absolute := fun p => "/cwd/" ++ p
    path_exists := fun _ => true
    path_filename := fun p => p
    path_append := fun a b => a ++ "/" ++ b
    tree :=
      [ { source_path := "/src/lib", relative := "lib", filename := "lib", extension := "",
          is_directory := true },
        { source_path := "/src/lib/a.lua", relative := "lib/a.lua", filename := "a.lua",
          extension := ".lua", is_directory := false },
        { source_path := "/src/lib/a.doc.lua", relative := "lib/a.doc.lua",
          filename := "a.doc.lua", extension := ".lua", is_directory := false },
        { source_path := "/src/readme.txt", relative := "readme.txt", filename := "readme.txt",
          extension := ".txt", is_directory := false } ]
    create_directory_error := fun _ => none
    copy_file_error := fun _ _ => none }

/-! ## The calls of `setopt` made by a run -/

/-- The loop of `readopt` once more, returning what `readopt_loop` does not
show: the vector `_optionArgs` with which `setopt` is called after the loop,
or `none` when `readopt` leaves before that call. -/
def readopt_collected (_args : List String) (_gotName : String) :
    List option_arg_spec → List String → parse_state → Option (List String)
  | [], _optionArgs, _ => some _optionArgs
  | a :: rest, _optionArgs, s =>
    match next _args.length _gotName s a with
    | (_good, s1) =>
      if _good > 0 then
        match _args[_good.toNat]? with
        | some v => readopt_collected _args _gotName rest (_optionArgs ++ [v]) s1
        | none => none
      else if _good = 0 then
        some _optionArgs
      else
        none

/-- The call of `setopt` made by `parseopt(_gotName)` in state `s`: the
address of the option the alias resolves to and the values collected for it.
There is none when the alias is unknown or `readopt` does not reach
`setopt`. -/
def parseopt_calls (names : List (String × option_ptr)) (_args : List String)
    (_gotName : String) (s : parse_state) : List (Nat × List String) :=
  match umap_find names _gotName with
  | some it =>
    match readopt_collected _args _gotName it.spec.args [] s with
    | some _optionArgs => [(it.addr, _optionArgs)]
    | none => []
  | none => []

/-- The calls of `setopt` made by the calls `parseopt(g)` of `parse_all`, in
the order in which they are made. -/
def parse_all_calls (names : List (String × option_ptr)) (_args : List String) :
    List String → parse_state → List (Nat × List String)
  | [], _ => []
  | g :: gs, s =>
    parseopt_calls names _args g s ++
      match parseopt names _args g s with
      | .ret _result s1 => if _result ≠ 0 then [] else parse_all_calls names _args gs s1
      | .out_of_bounds _ _ => []

/-- The calls of `setopt` made by one iteration of the scan loop: those for
the alias candidates of the token `_args[i]`, whether the token is a whole
alias or a bundle. -/
def scan_body_calls (names : List (String × option_ptr)) (_args : List String)
    (s : parse_state) : List (Nat × List String) :=
  match _args[s.i]? with
  | none => []
  | some _arg => parse_all_calls names _args (alias_candidates _arg) s

/-- The calls of `setopt` made by the scan loop from the state `s` on, in the
order in which they are made. -/
def scan_calls (names : List (String × option_ptr)) (_args : List String) :
    Nat → parse_state → List (Nat × List String)
  | 0, _ => []
  | fuel + 1, s =>
    if s.i ≠ _args.length then
      scan_body_calls names _args s ++
        match scan_body names _args s with
        | .ret _result s1 =>
          if _result ≠ 0 then [] else scan_calls names _args fuel { s1 with i := s1.i + 1 }
        | .out_of_bounds _ _ => []
    else
      []

/-- All calls of `setopt` made by a run of `parse_table table _args`, one for
every occurrence of an option whose sub-arguments were read, in scan order. -/
def setopt_calls (table : List option_spec) (_args : List String) : List (Nat × List String) :=
  scan_calls (build_option_names table) _args (_args.length + 1) (initial_state _args)

/-- The values of the first call in a list of `setopt` calls that is for the
option at address `k`. -/
def first_call_for (calls : List (Nat × List String)) (k : Nat) : Option (List String) :=
  (calls.find? (fun c => c.1 = k)).map (fun c => c.2)

/-! ## Lemmas on the maps and on `starts_with` -/

theorem umap_find_append_one {κ α : Type} [DecidableEq κ] (m : List (κ × α)) (k k' : κ)
    (v : α) :
    umap_find (m ++ [(k, v)]) k' =
      match umap_find m k' with
      | some x => some x
      | none => if k = k' then some v else none := by
  induction m with
  | nil => simp [umap_find]
  | cons hd tl ih =>
    obtain ⟨a, b⟩ := hd
    by_cases h : a = k'
    · simp [umap_find, h]
    · simp [umap_find, h, ih]

theorem umap_find_insert {κ α : Type} [DecidableEq κ] (m : List (κ × α)) (k k' : κ)
    (v : α) :
    umap_find (umap_insert m k v) k' =
      match umap_find m k' with
      | some x => some x
      | none => if k = k' then some v else none := by
  unfold umap_insert
  cases h : umap_find m k with
  | some x =>
    simp only
    cases h' : umap_find m k' with
    | some y => rfl
    | none =>
      have : k ≠ k' := by
        intro e
        rw [e, h'] at h
        cases h
      simp [this]
  | none => simp only [umap_find_append_one]

theorem umap_find_mem {κ α : Type} [DecidableEq κ] (m : List (κ × α)) (k : κ) (v : α)
    (h : umap_find m k = some v) : (k, v) ∈ m := by
  induction m with
  | nil => simp [umap_find] at h
  | cons hd tl ih =>
    obtain ⟨a, b⟩ := hd
    by_cases e : a = k
    · simp [umap_find, e] at h
      simp [e, h]
    · simp [umap_find, e] at h
      exact List.mem_cons_of_mem _ (ih h)

theorem umap_mem_insert {κ α : Type} [DecidableEq κ] (m : List (κ × α)) (k : κ) (v : α)
    (x : κ × α) (h : x ∈ umap_insert m k v) : x ∈ m ∨ x = (k, v) := by
  unfold umap_insert at h
  cases e : umap_find m k with
  | some y =>
    rw [e] at h
    exact Or.inl h
  | none =>
    rw [e] at h
    simpa using h

theorem starts_with_dash (s : String) :
    starts_with s "-" = true ↔ ∃ r, s.data = '-' :: r := by
  unfold starts_with
  rw [List.isPrefixOf_iff_prefix]
  constructor
  · rintro ⟨t, ht⟩
    exact ⟨t, ht.symm⟩
  · rintro ⟨r, hr⟩
    exact ⟨r, hr.symm⟩

theorem starts_with_dash_dash (s : String) :
    starts_with s "--" = true ↔ ∃ r, s.data = '-' :: '-' :: r := by
  unfold starts_with
  rw [List.isPrefixOf_iff_prefix]
  constructor
  · rintro ⟨t, ht⟩
    exact ⟨t, ht.symm⟩
  · rintro ⟨r, hr⟩
    exact ⟨r, hr.symm⟩

theorem starts_with_dash_of_dash_dash (s : String) (h : starts_with s "--" = true) :
    starts_with s "-" = true := by
  obtain ⟨r, hr⟩ := (starts_with_dash_dash s).1 h
  exact (starts_with_dash s).2 ⟨_, hr⟩

/-! ## The scan loop over an index whose options take no sub-argument -/

theorem bundle_loop_eq (names : List (String × option_ptr)) (_args : List String)
    (cs : List Char) (s : parse_state) :
    bundle_loop names _args cs s =
      parse_all names _args (cs.map (fun c => String.mk ['-', c])) s := by
  induction cs generalizing s with
  | nil => rfl
  | cons c cs ih =>
    simp only [bundle_loop, parse_all, List.map_cons]
    cases parseopt names _args (String.mk ['-', c]) s with
    | ret v s1 =>
      simp only
      split
      · rfl
      · exact ih s1
    | out_of_bounds k s1 => rfl

theorem parse_all_single (names : List (String × option_ptr)) (_args : List String)
    (g : String) (s : parse_state) :
    parse_all names _args [g] s = parseopt names _args g s := by
  simp only [parse_all]
  cases parseopt names _args g s with
  | ret v s1 =>
    simp only
    split
    · rfl
    · rename_i h
      have : v = 0 := by simpa using h
      rw [this]
  | out_of_bounds k s1 => rfl

theorem scan_body_eq (names : List (String × option_ptr)) (_args : List String)
    (s : parse_state) (tok : String) (h : _args[s.i]? = some tok) :
    scan_body names _args s =
      if starts_with tok "-" then parse_all names _args (alias_candidates tok) s
      else .ret 0 { s with arguements := s.arguements ++ [tok] } := by
  unfold scan_body alias_candidates
  rw [h]
  simp only
  by_cases h2 : starts_with tok "--" = true
  · simp [h2, starts_with_dash_of_dash_dash tok h2, parse_all_single]
  · by_cases h1 : starts_with tok "-" = true
    · by_cases hl : tok.length = 2
      · simp [h2, h1, hl, parse_all_single]
      · simp [h2, h1, hl, bundle_loop_eq]
    · simp [h2, h1]

theorem parseopt_zero (names : List (String × option_ptr)) (hz : zero_arg_index names)
    (_args : List String) (g : String) (s : parse_state) :
    parseopt names _args g s =
      match umap_find names g with
      | some it => .ret 0 (setopt s it [])
      | none => .ret (-1) { s with out := s.out ++ [unrecognized_line g] } := by
  unfold parseopt
  cases h : umap_find names g with
  | some it =>
    simp only [readopt, hz g it h, readopt_loop]
  | none => rfl

theorem record_all_append (names : List (String × option_ptr)) (a b : List String)
    (m : List (Nat × List String)) :
    record_all names (a ++ b) m = record_all names b (record_all names a m) := by
  induction a generalizing m with
  | nil => rfl
  | cons g gs ih =>
    simp only [List.cons_append, record_all]
    cases umap_find names g with
    | some it => exact ih _
    | none => exact ih _

theorem parse_all_zero_ok (names : List (String × option_ptr)) (hz : zero_arg_index names)
    (_args : List String) (gs : List String) (s : parse_state)
    (h : gs.find? (fun g => (umap_find names g).isNone) = none) :
    parse_all names _args gs s =
      .ret 0 { s with options := record_all names gs s.options } := by
  induction gs generalizing s with
  | nil => rfl
  | cons g gs ih =>
    rw [List.find?_cons] at h
    cases hg : umap_find names g with
    | none => simp [hg] at h
    | some it =>
      simp only [hg, Option.isNone_some] at h
      simp only [parse_all, parseopt_zero names hz, hg, record_all]
      simp only [ne_eq, not_true_eq_false, if_false]
      rw [ih _ h]
      rfl

theorem parse_all_zero_bad (names : List (String × option_ptr)) (hz : zero_arg_index names)
    (_args : List String) (gs : List String) (s : parse_state) (g : String)
    (h : gs.find? (fun g => (umap_find names g).isNone) = some g) :
    ∃ s1, parse_all names _args gs s = .ret (-1) s1 ∧
      s1.out = s.out ++ [unrecognized_line g] := by
  induction gs generalizing s with
  | nil => simp at h
  | cons g0 gs ih =>
    rw [List.find?_cons] at h
    cases hg : umap_find names g0 with
    | none =>
      simp only [hg, Option.isNone_none, Option.some.injEq] at h
      subst h
      refine ⟨{ s with out := s.out ++ [unrecognized_line g0] }, ?_, rfl⟩
      simp [parse_all, parseopt_zero names hz, hg]
    | some it =>
      simp only [hg, Option.isNone_some] at h
      obtain ⟨s1, h1, h2⟩ := ih (setopt s it []) h
      refine ⟨s1, ?_, h2⟩
      simp only [parse_all, parseopt_zero names hz, hg]
      simpa using h1

theorem alias_candidates_positional (tok : String) (h : ¬ starts_with tok "-" = true) :
    alias_candidates tok = [] := by
  unfold alias_candidates
  have h2 : ¬ starts_with tok "--" = true := fun e => h (starts_with_dash_of_dash_dash tok e)
  simp [h, h2]

theorem first_unknown_cons (names : List (String × option_ptr)) (tok : String)
    (rest : List String) :
    first_unknown names (tok :: rest) =
      ((alias_candidates tok).find? (fun g => (umap_find names g).isNone)).or
        (first_unknown names rest) := by
  simp [first_unknown, all_candidates, List.flatMap_cons, List.find?_append]

theorem scan_zero (names : List (String × option_ptr)) (hz : zero_arg_index names)
    (_args : List String) : ∀ (fuel : Nat) (s : parse_state),
    s.i ≤ _args.length → _args.length - s.i < fuel →
    scan names _args fuel s =
      match first_unknown names (_args.drop s.i) with
      | some g => .exited (-1) (s.out ++ [unrecognized_line g])
      | none =>
        .returned (s.arguements ++ (_args.drop s.i).filter (fun t => !starts_with t "-"))
          (record_all names (all_candidates (_args.drop s.i)) s.options) s.out := by
  intro fuel
  induction fuel with
  | zero => intro s _ h; omega
  | succ fuel ih =>
    intro s hle hfuel
    by_cases hi : s.i = _args.length
    · simp [scan, hi, first_unknown, all_candidates, record_all]
    · have hlt : s.i < _args.length := by omega
      have hdrop : _args.drop s.i = _args[s.i] :: _args.drop (s.i + 1) :=
        List.drop_eq_getElem_cons hlt
      have hget : _args[s.i]? = some _args[s.i] := List.getElem?_eq_getElem hlt
      rw [hdrop, first_unknown_cons]
      simp only [scan, ne_eq, hi, not_false_eq_true, if_true, scan_body_eq names _args s _ hget]
      by_cases hd : starts_with _args[s.i] "-" = true
      · simp only [hd, if_true]
        cases hf : (alias_candidates _args[s.i]).find? (fun g => (umap_find names g).isNone) with
        | some g =>
          obtain ⟨s1, h1, h2⟩ := parse_all_zero_bad names hz _args _ s g hf
          simp [h1, h2]
        | none =>
          rw [parse_all_zero_ok names hz _args _ s hf]
          simp only [ne_eq, not_true_eq_false, if_false, Option.none_or]
          rw [ih _ (by simp; omega) (by simp; omega)]
          simp [all_candidates, List.flatMap_cons, record_all_append, hd, -List.getElem_cons_drop]
      · rw [alias_candidates_positional _ hd]
        simp only [hd, Bool.false_eq_true, if_false, List.find?_nil, Option.none_or, ne_eq,
          not_true_eq_false]
        rw [ih _ (by simp; omega) (by simp; omega)]
        simp [all_candidates, List.flatMap_cons, alias_candidates_positional _ hd, hd,
          -List.getElem_cons_drop]

/-! ## The alias index built from a table -/

theorem option_names_inner_mem (addr : Nat) (v : option_spec) (ns : List String)
    (acc : List (String × option_ptr)) (x : String × option_ptr)
    (h : x ∈ option_names_inner addr v ns acc) :
    x ∈ acc ∨ (x.2 = { addr := addr, spec := v } ∧ x.1 ∈ ns) := by
  induction ns generalizing acc with
  | nil => exact Or.inl h
  | cons n ns ih =>
    rcases ih _ h with h1 | ⟨h1, h2⟩
    · rcases umap_mem_insert _ _ _ _ h1 with h3 | h3
      · exact Or.inl h3
      · right
        rw [h3]
        simp
    · exact Or.inr ⟨h1, List.mem_cons_of_mem _ h2⟩

theorem option_names_outer_mem (addr : Nat) (vs : List option_spec)
    (acc : List (String × option_ptr)) (x : String × option_ptr)
    (h : x ∈ option_names_outer addr vs acc) :
    x ∈ acc ∨ (∃ j, vs[j]? = some x.2.spec ∧ x.2.addr = addr + j ∧ x.1 ∈ x.2.spec.names) := by
  induction vs generalizing addr acc with
  | nil => exact Or.inl h
  | cons v vs ih =>
    rcases ih _ _ h with h1 | ⟨j, h1, h2, h3⟩
    · rcases option_names_inner_mem _ _ _ _ _ h1 with h4 | ⟨h4, h5⟩
      · exact Or.inl h4
      · right
        refine ⟨0, ?_, ?_, ?_⟩
        · simp [h4]
        · simp [h4]
        · simpa [h4] using h5
    · right
      refine ⟨j + 1, ?_, ?_, h3⟩
      · simpa using h1
      · omega

theorem build_option_names_mem (table : List option_spec) (g : String) (it : option_ptr)
    (h : (g, it) ∈ build_option_names table) :
    table[it.addr]? = some it.spec ∧ g ∈ it.spec.names := by
  rcases option_names_outer_mem 0 table [] _ h with h1 | ⟨j, h1, h2, h3⟩
  · simp at h1
  · simp only [Nat.zero_add] at h2
    exact ⟨by rw [h2]; exact h1, h3⟩

theorem build_option_names_find (table : List option_spec) (g : String) (it : option_ptr)
    (h : umap_find (build_option_names table) g = some it) :
    table[it.addr]? = some it.spec ∧ g ∈ it.spec.names :=
  build_option_names_mem table g it (umap_find_mem _ _ _ h)

theorem zero_arg_index_of_table (table : List option_spec)
    (hz : ∀ o ∈ table, o.args = []) : zero_arg_index (build_option_names table) := by
  intro g it h
  have h1 := (build_option_names_find table g it h).1
  exact hz _ (List.getElem?_mem h1)

theorem zero_arg_option_names : zero_arg_index option_names :=
  zero_arg_index_of_table defined_options (by decide)

theorem option_names_eq :
    option_names =
      [("-m", ⟨0, defined_options[0]⟩), ("--minimal", ⟨0, defined_options[0]⟩),
       ("-e", ⟨1, defined_options[1]⟩), ("--echo", ⟨1, defined_options[1]⟩),
       ("-h", ⟨2, defined_options[2]⟩), ("--help", ⟨2, defined_options[2]⟩),
       ("-v", ⟨3, defined_options[3]⟩), ("--verbose", ⟨3, defined_options[3]⟩),
       ("--debug-ignored", ⟨4, defined_options[4]⟩)] := by
  decide

/-! ## Parsing against a table whose options take no sub-argument -/

theorem umap_find_isSome_iff {κ α : Type} [DecidableEq κ] (m : List (κ × α)) (k : κ) :
    (umap_find m k).isSome = true ↔ ∃ v, (k, v) ∈ m := by
  induction m with
  | nil => simp [umap_find]
  | cons hd tl ih =>
    obtain ⟨a, b⟩ := hd
    by_cases e : a = k
    · subst e
      simp [umap_find]
    · have e' : ¬ k = a := fun h => e h.symm
      simp [umap_find, e, ih, e']

theorem record_all_find (names : List (String × option_ptr)) (gs : List String)
    (m : List (Nat × List String)) (k : Nat) :
    (umap_find (record_all names gs m) k).isSome = true ↔
      (umap_find m k).isSome = true ∨
        ∃ g ∈ gs, ∃ it, umap_find names g = some it ∧ it.addr = k := by
  induction gs generalizing m with
  | nil => simp [record_all]
  | cons g gs ih =>
    simp only [record_all]
    cases hg : umap_find names g with
    | none =>
      simp only
      rw [ih]
      simp [hg]
    | some it =>
      simp only
      rw [ih, umap_find_insert]
      cases hm : umap_find m k with
      | some x => simp
      | none =>
        by_cases e : it.addr = k
        · simp [e, hg]
        · simp [e, hg]

theorem record_all_values (names : List (String × option_ptr)) (gs : List String)
    (m : List (Nat × List String)) (hm : ∀ x ∈ m, x.2 = []) :
    ∀ x ∈ record_all names gs m, x.2 = [] := by
  induction gs generalizing m with
  | nil => simpa [record_all] using hm
  | cons g gs ih =>
    simp only [record_all]
    cases hg : umap_find names g with
    | none => exact ih m hm
    | some it =>
      refine ih _ ?_
      intro x hx
      rcases umap_mem_insert _ _ _ _ hx with h | h
      · exact hm x h
      · rw [h]

theorem parse_table_zero (table : List option_spec) (hz : ∀ o ∈ table, o.args = [])
    (prog : String) (rest : List String) :
    parse_table table (prog :: rest) =
      match first_unknown (build_option_names table) rest with
      | some g => .exited (-1) [unrecognized_line g]
      | none =>
        .returned (rest.filter (fun t => !starts_with t "-"))
          (record_all (build_option_names table) (all_candidates rest) [])
          (if rest = [] then ["use -h or --help for help"] else []) := by
  unfold parse_table
  rw [scan_zero _ (zero_arg_index_of_table table hz) _ _ _
    (by simp [initial_state]) (by simp [initial_state]; omega)]
  cases rest with
  | nil => simp [initial_state, first_unknown, all_candidates]
  | cons t ts =>
    simp only [initial_state, List.drop_succ_cons, List.drop_zero, List.length_cons]
    cases first_unknown (build_option_names table) (t :: ts) with
    | some g => simp
    | none => simp

theorem parse_command_line_nil : parse_command_line [] = .out_of_bounds 1 [] := by
  decide

theorem option_names_owner (k : Nat) (o : option_spec) (g : String)
    (ho : defined_options[k]? = some o) (hg : g ∈ o.names) :
    ∃ it, umap_find option_names g = some it ∧ it.addr = k := by
  have hk : k < 5 := by
    have := (List.getElem?_eq_some_iff.1 ho).1
    simpa [defined_options] using this
  interval_cases k <;> simp [defined_options] at ho <;> subst ho <;> simp at hg <;>
    rcases hg with rfl | rfl <;> decide

/-! ## The built-in table: positionals, selected options, unrecognized options -/

/-- C1. For the built-in option table and every argv on which
`parse_command_line` returns, the positional list returned is the list of the
tokens of `argv[1:]` that do not start with `-`, in their original order. -/
theorem positionals_are_the_non_dash_tokens (_args pos : List String)
    (opts : List (Nat × List String)) (out : List String)
    (h : parse_command_line _args = .returned pos opts out) :
    pos = _args.tail.filter (fun t => !starts_with t "-") := by
  cases _args with
  | nil => rw [parse_command_line_nil] at h; cases h
  | cons prog rest =>
    unfold parse_command_line at h
    rw [parse_table_zero defined_options (by decide)] at h
    cases hf : first_unknown (build_option_names defined_options) rest with
    | some g => rw [hf] at h; cases h
    | none =>
      rw [hf] at h
      simp only [Outcome.returned.injEq] at h
      exact h.1.symm

theorem positionals_are_the_non_dash_tokens_witness :
    parse_command_line ["prog", "-v", "--minimal", "/tmp/out"] =
        .returned ["/tmp/out"] [(3, []), (0, [])] [] ∧
      ["/tmp/out"] =
        (["prog", "-v", "--minimal", "/tmp/out"] : List String).tail.filter
          (fun t => !starts_with t "-") :=
  ⟨by decide,
    positionals_are_the_non_dash_tokens ["prog", "-v", "--minimal", "/tmp/out"]
      ["/tmp/out"] [(3, []), (0, [])] [] (by decide)⟩

/-- C2. For the built-in option table and every argv on which
`parse_command_line` returns, the option stored at index `k` of
`defined_options` is a key of the returned map exactly when one of its
aliases is an alias candidate of a token of `argv[1:]`; every key is the
index of an option of the table and every stored value list is empty. -/
theorem selected_options_are_the_supplied_ones (_args pos : List String)
    (opts : List (Nat × List String)) (out : List String)
    (h : parse_command_line _args = .returned pos opts out) :
    (∀ k o, defined_options[k]? = some o →
      ((∃ v, (k, v) ∈ opts) ↔
        ∃ tok ∈ _args.tail, ∃ g ∈ alias_candidates tok, g ∈ o.names)) ∧
    (∀ k v, (k, v) ∈ opts → v = [] ∧ k < defined_options.length) := by
  cases _args with
  | nil => rw [parse_command_line_nil] at h; cases h
  | cons prog rest =>
    unfold parse_command_line at h
    rw [parse_table_zero defined_options (by decide)] at h
    cases hf : first_unknown (build_option_names defined_options) rest with
    | some g => rw [hf] at h; cases h
    | none =>
      rw [hf] at h
      simp only [Outcome.returned.injEq] at h
      obtain ⟨-, hopts, -⟩ := h
      subst hopts
      have hkey : ∀ k, (∃ v, (k, v) ∈
          record_all (build_option_names defined_options) (all_candidates rest) []) ↔
          ∃ g ∈ all_candidates rest, ∃ it,
            umap_find (build_option_names defined_options) g = some it ∧ it.addr = k := by
        intro k
        rw [← umap_find_isSome_iff, record_all_find]
        simp [umap_find]
      constructor
      · intro k o ho
        rw [hkey k]
        simp only [all_candidates, List.mem_flatMap, List.tail_cons]
        constructor
        · rintro ⟨g, ⟨tok, htok, hg⟩, it, hit, hk⟩
          obtain ⟨h1, h2⟩ := build_option_names_find _ _ _ hit
          rw [hk, ho] at h1
          cases h1
          exact ⟨tok, htok, g, hg, h2⟩
        · rintro ⟨tok, htok, g, hg, hn⟩
          exact ⟨g, ⟨tok, htok, hg⟩, option_names_owner k o g ho hn⟩
      · intro k v hkv
        refine ⟨record_all_values _ _ [] (by simp) _ hkv, ?_⟩
        obtain ⟨g, -, it, hit, hk⟩ := (hkey k).1 ⟨v, hkv⟩
        have h1 := (build_option_names_find _ _ _ hit).1
        rw [hk] at h1
        exact (List.getElem?_eq_some_iff.1 h1).1

theorem selected_options_are_the_supplied_ones_witness :
    parse_command_line ["prog", "-v", "--minimal", "/tmp/out"] =
        .returned ["/tmp/out"] [(3, []), (0, [])] [] ∧
      ((∀ k o, defined_options[k]? = some o →
        ((∃ v, (k, v) ∈ [((3 : Nat), ([] : List String)), (0, [])]) ↔
          ∃ tok ∈ (["prog", "-v", "--minimal", "/tmp/out"] : List String).tail,
            ∃ g ∈ alias_candidates tok, g ∈ o.names)) ∧
      (∀ k v, (k, v) ∈ [((3 : Nat), ([] : List String)), (0, [])] →
        v = [] ∧ k < defined_options.length)) :=
  ⟨by decide,
    selected_options_are_the_supplied_ones ["prog", "-v", "--minimal", "/tmp/out"]
      ["/tmp/out"] [(3, []), (0, [])] [] (by decide)⟩

/-- C3. For the built-in option table and every argv with its program name:
when some alias candidate of `argv[1:]` is not a key of the alias index, the
run exits with status `-1` after printing the unrecognized-option line for the
first such candidate in scan order; otherwise `parse_command_line` returns.
So the run fails with an unrecognized-option error exactly when such a
candidate exists, and `[prog, "-z"]` fails with unrecognized option `"-z"`. -/
theorem unrecognized_option_iff_unknown_candidate (prog : String) (rest : List String) :
    (parse_command_line (prog :: rest) =
      match first_unknown option_names rest with
      | some g => .exited (-1) [println_err ("unrecognized option \"" ++ g ++ "\"")]
      | none =>
        .returned (rest.filter (fun t => !starts_with t "-"))
          (record_all option_names (all_candidates rest) [])
          (if rest = [] then ["use -h or --help for help"] else [])) ∧
    ((∃ g, parse_command_line (prog :: rest) =
        .exited (-1) [println_err ("unrecognized option \"" ++ g ++ "\"")]) ↔
      ∃ g ∈ all_candidates rest, umap_find option_names g = none) ∧
    parse_command_line ["prog", "-z"] =
      .exited (-1) ["ERROR : unrecognized option \"-z\""] := by
  have heq := parse_table_zero defined_options (by decide) prog rest
  refine ⟨heq, ?_, by decide⟩
  unfold parse_command_line
  rw [heq]
  cases hf : first_unknown (build_option_names defined_options) rest with
  | some g =>
    simp only [Outcome.exited.injEq, true_and]
    constructor
    · intro _
      have h1 := List.find?_some hf
      have h2 := List.mem_of_find?_eq_some hf
      exact ⟨g, h2, by simpa using h1⟩
    · intro _
      exact ⟨g, rfl⟩
  | none =>
    constructor
    · rintro ⟨g, h⟩
      cases h
    · rintro ⟨g, hg, hn⟩
      have := List.find?_eq_none.1 hf g hg
      simp only [option_names] at hn
      simp [hn] at this

/-! ## Bundled short flags -/

theorem alias_candidates_short (c : Char) :
    alias_candidates (String.mk ['-', c]) = [String.mk ['-', c]] := by
  unfold alias_candidates
  by_cases h : starts_with (String.mk ['-', c]) "--" = true
  · simp [h]
  · have h1 : starts_with (String.mk ['-', c]) "-" = true :=
      (starts_with_dash _).2 ⟨[c], rfl⟩
    simp [h, h1]

theorem all_candidates_short (cs : List Char) :
    all_candidates (cs.map (fun c => String.mk ['-', c])) =
      cs.map (fun c => String.mk ['-', c]) := by
  induction cs with
  | nil => rfl
  | cons c cs ih =>
    simp only [all_candidates, List.map_cons, List.flatMap_cons] at ih ⊢
    rw [ih, alias_candidates_short]
    rfl

theorem filter_short (cs : List Char) :
    (cs.map (fun c => String.mk ['-', c])).filter (fun t => !starts_with t "-") = [] := by
  rw [List.filter_eq_nil_iff]
  intro t ht
  obtain ⟨c, -, rfl⟩ := List.mem_map.1 ht
  simp [(starts_with_dash (String.mk ['-', c])).2 ⟨[c], rfl⟩]

theorem alias_candidates_bundle (tok : String) (h1 : starts_with tok "-" = true)
    (h2 : starts_with tok "--" = false) (h3 : 2 < tok.length) :
    alias_candidates tok = tok.data.tail.map (fun c => String.mk ['-', c]) := by
  unfold alias_candidates
  have : ¬ tok.length = 2 := by omega
  simp [h1, h2, this]

theorem all_candidates_append (a b : List String) :
    all_candidates (a ++ b) = all_candidates a ++ all_candidates b := by
  simp [all_candidates, List.flatMap_append]

/-- C4. Bundling equivalence: for every option table whose options all take
zero sub-arguments and every argv, replacing a token of `argv[1:]` that
starts with a single `-` and has more than two characters by the tokens `-c`
for its characters `c` after the `-`, in order, does not change the outcome of
the parse (same positionals, same options map, same output, or the same
failure). -/
theorem bundle_equals_separate_flags (table : List option_spec)
    (hz : ∀ o ∈ table, o.args = []) (prog : String) (pre post : List String)
    (tok : String) (h1 : starts_with tok "-" = true) (h2 : starts_with tok "--" = false)
    (h3 : 2 < tok.length) :
    parse_table table (prog :: (pre ++ tok :: post)) =
      parse_table table
        (prog :: (pre ++ (tok.data.tail.map (fun c => String.mk ['-', c]) ++ post))) := by
  rw [parse_table_zero table hz, parse_table_zero table hz]
  have hc : all_candidates (pre ++ tok :: post) =
      all_candidates (pre ++ (tok.data.tail.map (fun c => String.mk ['-', c]) ++ post)) := by
    rw [all_candidates_append, all_candidates_append, all_candidates_append,
      all_candidates_short]
    simp [all_candidates, List.flatMap_cons, alias_candidates_bundle tok h1 h2 h3]
  have hf : (pre ++ tok :: post).filter (fun t => !starts_with t "-") =
      (pre ++ (tok.data.tail.map (fun c => String.mk ['-', c]) ++ post)).filter
        (fun t => !starts_with t "-") := by
    rw [List.filter_append, List.filter_append, List.filter_append, filter_short]
    simp [List.filter_cons, h1]
  have hne : tok.data.tail ≠ [] := by
    intro h
    have : tok.data.length ≤ 1 := by
      cases hd : tok.data with
      | nil => simp
      | cons a l =>
        rw [hd] at h
        simp at h
        simp [h]
    have h4 : tok.data.length = tok.length := rfl
    omega
  have hn1 : pre ++ tok :: post ≠ [] := by simp
  have hn2 : pre ++ (tok.data.tail.map (fun c => String.mk ['-', c]) ++ post) ≠ [] := by
    intro h
    have h5 := (List.append_eq_nil.1 (List.append_eq_nil.1 h).2).1
    exact hne (List.map_eq_nil_iff.1 h5)
  simp only [first_unknown, hc, hf, hn1, hn2, if_false]

theorem bundle_equals_separate_flags_witness :
    parse_table defined_options ["prog", "-vh"] =
      parse_table defined_options ["prog", "-v", "-h"] :=
  bundle_equals_separate_flags defined_options (by decide) "prog" [] [] "-vh"
    (by decide) (by decide) (by decide)

/-! ## What every call guarantees -/

theorem call_ok_of_eq (s s0 : parse_state) (r : call_result) (hi : s0.i ≤ s.i)
    (ho : ∀ k x, umap_find s0.options k = some x → umap_find s.options k = some x)
    (hout : s.out = s0.out) (h : call_ok s r) : call_ok s0 r := by
  cases r with
  | ret v s1 =>
    obtain ⟨h1, h2, h3⟩ := h
    refine ⟨by omega, fun k x hx => h2 k x (ho k x hx), ?_⟩
    rw [hout] at h3
    exact h3
  | out_of_bounds k s1 =>
    simp only [call_ok] at h ⊢
    rw [h, hout]

theorem setopt_keeps (s : parse_state) (it : option_ptr) (vals : List String) (k : Nat)
    (x : List String) (h : umap_find s.options k = some x) :
    umap_find (setopt s it vals).options k = some x := by
  simp only [setopt, umap_find_insert, h]

theorem readopt_loop_ok (_args : List String) (it : option_ptr) (g : String) :
    ∀ (slots : List option_arg_spec) (acc : List String) (s : parse_state),
      call_ok s (readopt_loop _args it g slots acc s) := by
  intro slots
  induction slots with
  | nil =>
    intro acc s
    exact ⟨Nat.le_refl _, setopt_keeps s it acc, Or.inl ⟨rfl, rfl⟩⟩
  | cons a rest ih =>
    intro acc s
    simp only [readopt_loop, next]
    by_cases hend : s.i + 1 = _args.length
    · by_cases hreq : a.required = true
      · simp only [hend, hreq, if_true]
        refine ⟨by simp; omega, fun k x hx => hx, Or.inr ⟨rfl, Or.inr ⟨a.name, g, ?_⟩⟩⟩
        simp [missing_line, failed_line]
      · simp only [hend, hreq, if_true]
        refine ⟨by simp [setopt]; omega, ?_, Or.inl ⟨rfl, rfl⟩⟩
        intro k x hx
        exact setopt_keeps _ it acc k x hx
    · simp only [hend, if_false]
      have hpos : ((s.i + 1 : Nat) : Int) > 0 := by omega
      simp only [hpos, if_true]
      cases _args[((s.i + 1 : Nat) : Int).toNat]? with
      | none => rfl
      | some v =>
        simp only
        exact call_ok_of_eq
          { i := s.i + 1, options := s.options, arguements := s.arguements, out := s.out }
          s _ (by simp) (fun k x hx => hx) rfl (ih _ _)

theorem parseopt_ok (names : List (String × option_ptr)) (_args : List String) (g : String)
    (s : parse_state) : call_ok s (parseopt names _args g s) := by
  unfold parseopt
  cases umap_find names g with
  | some it => exact readopt_loop_ok _args it g _ _ s
  | none => exact ⟨Nat.le_refl _, fun k x hx => hx, Or.inr ⟨rfl, Or.inl ⟨g, rfl⟩⟩⟩

theorem parse_all_ok (names : List (String × option_ptr)) (_args : List String) :
    ∀ (gs : List String) (s : parse_state), call_ok s (parse_all names _args gs s) := by
  intro gs
  induction gs with
  | nil =>
    intro s
    exact ⟨Nat.le_refl _, fun k x hx => hx, Or.inl ⟨rfl, rfl⟩⟩
  | cons g gs ih =>
    intro s
    simp only [parse_all]
    have h := parseopt_ok names _args g s
    cases hr : parseopt names _args g s with
    | out_of_bounds k s1 =>
      rw [hr] at h
      exact h
    | ret v s1 =>
      rw [hr] at h
      simp only
      by_cases hv : v = 0
      · simp only [hv, ne_eq, not_true_eq_false, if_false]
        obtain ⟨h1, h2, h3⟩ := h
        rcases h3 with ⟨-, h3⟩ | ⟨h3, -⟩
        · exact call_ok_of_eq s1 s _ h1 h2 h3 (ih s1)
        · omega
      · simp only [ne_eq, hv, not_false_eq_true, if_true]
        exact h

theorem scan_body_ok (names : List (String × option_ptr)) (_args : List String)
    (s : parse_state) : call_ok s (scan_body names _args s) := by
  cases hget : _args[s.i]? with
  | none =>
    simp only [scan_body, hget]
    rfl
  | some tok =>
    rw [scan_body_eq names _args s tok hget]
    split
    · exact parse_all_ok names _args _ s
    · exact ⟨Nat.le_refl _, fun k x hx => hx, Or.inl ⟨rfl, rfl⟩⟩

/-! ## The scan loop for an arbitrary table -/

theorem scan_exited (names : List (String × option_ptr)) (_args : List String) :
    ∀ (fuel : Nat) (s : parse_state) (status : Int) (out : List String),
      scan names _args fuel s = .exited status out →
      status = -1 ∧ ((∃ g, out = s.out ++ [unrecognized_line g]) ∨
        (∃ slot g, out = s.out ++ [missing_line slot g, failed_line g])) := by
  intro fuel
  induction fuel with
  | zero => intro s status out h; simp [scan] at h
  | succ fuel ih =>
    intro s status out h
    simp only [scan] at h
    by_cases hi : s.i = _args.length
    · simp [hi] at h
    · simp only [ne_eq, hi, not_false_eq_true, if_true] at h
      have hok := scan_body_ok names _args s
      cases hr : scan_body names _args s with
      | out_of_bounds k s1 => simp [hr] at h
      | ret v s1 =>
        rw [hr] at h hok
        simp only at h
        obtain ⟨-, -, h3⟩ := hok
        by_cases hv : v = 0
        · simp only [hv, ne_eq, not_true_eq_false, if_false] at h
          rcases h3 with ⟨-, h3⟩ | ⟨h3, -⟩
          · have := ih _ _ _ h
            simpa [h3] using this
          · omega
        · simp only [ne_eq, hv, not_false_eq_true, if_true, Outcome.exited.injEq] at h
          obtain ⟨rfl, rfl⟩ := h
          rcases h3 with ⟨h3, -⟩ | ⟨h3, h4⟩
          · exact absurd h3 hv
          · exact ⟨h3, h4⟩

theorem scan_keeps (names : List (String × option_ptr)) (_args : List String) :
    ∀ (fuel : Nat) (s : parse_state) (pos : List String) (opts : List (Nat × List String))
      (out : List String), scan names _args fuel s = .returned pos opts out →
      ∀ k x, umap_find s.options k = some x → umap_find opts k = some x := by
  intro fuel
  induction fuel with
  | zero => intro s pos opts out h; simp [scan] at h
  | succ fuel ih =>
    intro s pos opts out h k x hx
    simp only [scan] at h
    by_cases hi : s.i = _args.length
    · simp only [hi, ne_eq, not_true_eq_false, if_false, Outcome.returned.injEq] at h
      rw [← h.2.1]
      exact hx
    · simp only [ne_eq, hi, not_false_eq_true, if_true] at h
      have hok := scan_body_ok names _args s
      cases hr : scan_body names _args s with
      | out_of_bounds k s1 => simp [hr] at h
      | ret v s1 =>
        rw [hr] at h hok
        simp only at h
        obtain ⟨-, h2, -⟩ := hok
        by_cases hv : v = 0
        · simp only [hv, ne_eq, not_true_eq_false, if_false] at h
          exact ih _ _ _ _ h k x (h2 k x hx)
        · simp [hv] at h

theorem scan_fuel_independent (names : List (String × option_ptr)) (_args : List String) :
    ∀ (f1 f2 : Nat) (s : parse_state), 1 ≤ f1 → 1 ≤ f2 → _args.length < f1 + s.i →
      _args.length < f2 + s.i → scan names _args f1 s = scan names _args f2 s := by
  intro f1
  induction f1 with
  | zero => intro f2 s h; omega
  | succ f1 ih =>
    intro f2 s _ h2 h3 h4
    obtain ⟨f2, rfl⟩ : ∃ f, f2 = f + 1 := ⟨f2 - 1, by omega⟩
    simp only [scan]
    by_cases hi : s.i = _args.length
    · simp [hi]
    · simp only [ne_eq, hi, not_false_eq_true, if_true]
      have hok := scan_body_ok names _args s
      cases hr : scan_body names _args s with
      | out_of_bounds k s1 => rfl
      | ret v s1 =>
        rw [hr] at hok
        simp only
        by_cases hv : v = 0
        · simp only [hv, ne_eq, not_true_eq_false, if_false]
          have hlt : s.i < _args.length := by
            by_contra hge
            have hnone : _args[s.i]? = none := List.getElem?_eq_none (by omega)
            simp [scan_body, hnone] at hr
          have h1 := hok.1
          exact ih f2 _ (by omega) (by omega) (by simp; omega) (by simp; omega)
        · simp [hv]

theorem scan_fuel (names : List (String × option_ptr)) (_args : List String) :
    ∀ (fuel : Nat) (s : parse_state), 1 ≤ fuel → _args.length < fuel + s.i →
      scan names _args fuel s ≠ .out_of_fuel := by
  intro fuel
  induction fuel with
  | zero => intro s h; omega
  | succ fuel ih =>
    intro s _ h3
    simp only [scan]
    by_cases hi : s.i = _args.length
    · simp [hi]
    · simp only [ne_eq, hi, not_false_eq_true, if_true]
      have hok := scan_body_ok names _args s
      cases hr : scan_body names _args s with
      | out_of_bounds k s1 => simp
      | ret v s1 =>
        rw [hr] at hok
        simp only
        by_cases hv : v = 0
        · simp only [hv, ne_eq, not_true_eq_false, if_false]
          have hlt : s.i < _args.length := by
            by_contra hge
            have hnone : _args[s.i]? = none := List.getElem?_eq_none (by omega)
            simp [scan_body, hnone] at hr
          have h1 := hok.1
          exact ih _ (by omega) (by simp; omega)
        · simp [hv]

theorem parse_table_fuel (table : List option_spec) (_args : List String) :
    parse_table table _args ≠ .out_of_fuel :=
  scan_fuel _ _ _ _ (by omega) (by simp [initial_state]; omega)

theorem loop_head_scan (table : List option_spec) (_args : List String) (s : parse_state)
    (h : loop_head table _args s) :
    1 ≤ s.i ∧
      parse_table table _args = scan (build_option_names table) _args (_args.length + 1) s := by
  induction h with
  | start => exact ⟨by simp [initial_state], rfl⟩
  | step s s1 _ hi hbody ih =>
    obtain ⟨h1, h2⟩ := ih
    have hok := scan_body_ok (build_option_names table) _args s
    rw [hbody] at hok
    have h3 := hok.1
    have hlt : s.i < _args.length := by
      by_contra hge
      have hnone : _args[s.i]? = none := List.getElem?_eq_none (by omega)
      simp [scan_body, hnone] at hbody
    refine ⟨by simp, ?_⟩
    rw [h2]
    conv_lhs => rw [scan]
    simp only [ne_eq, hi, not_false_eq_true, if_true, hbody, not_true_eq_false, if_false]
    exact scan_fuel_independent _ _ _ _ _ (by omega) (by omega) (by simp only []; omega)
      (by simp only []; omega)

/-! ## Reading the sub-arguments of an option -/

theorem readopt_loop_fill (_args : List String) (it : option_ptr) (g : String) :
    ∀ (slots : List option_arg_spec) (acc : List String) (s : parse_state),
      s.i + slots.length < _args.length →
      readopt_loop _args it g slots acc s =
        .ret 0 (setopt { s with i := s.i + slots.length } it
          (acc ++ (_args.drop (s.i + 1)).take slots.length)) := by
  intro slots
  induction slots with
  | nil =>
    intro acc s _
    simp [readopt_loop]
  | cons a rest ih =>
    intro acc s h
    simp only [List.length_cons] at h
    have hne : ¬ s.i + 1 = _args.length := by omega
    have hpos : ((s.i + 1 : Nat) : Int) > 0 := by omega
    have hlt : s.i + 1 < _args.length := by omega
    have hget : _args[s.i + 1]? = some _args[s.i + 1] := List.getElem?_eq_getElem hlt
    simp only [readopt_loop, next, hne, if_false, hpos, if_true, Int.toNat_ofNat, hget]
    rw [ih _ _ (by simp only []; omega)]
    have hdrop : _args.drop (s.i + 1) = _args[s.i + 1] :: _args.drop (s.i + 1 + 1) :=
      List.drop_eq_getElem_cons hlt
    rw [hdrop]
    simp only [List.length_cons, List.take_succ_cons, List.append_assoc, List.singleton_append]
    have : s.i + 1 + rest.length = s.i + (rest.length + 1) := by omega
    rw [this]

theorem parseopt_fill (names : List (String × option_ptr)) (_args : List String) (g : String)
    (it : option_ptr) (s : parse_state) (hfind : umap_find names g = some it)
    (h : s.i + it.spec.args.length < _args.length) :
    parseopt names _args g s =
      .ret 0 { i := s.i + it.spec.args.length
               options := umap_insert s.options it.addr
                 ((_args.drop (s.i + 1)).take it.spec.args.length)
               arguements := s.arguements
               out := s.out } := by
  simp only [parseopt, hfind, readopt]
  rw [readopt_loop_fill _args it g _ _ s h]
  simp [setopt]

theorem scan_body_whole (names : List (String × option_ptr)) (_args : List String)
    (s : parse_state) (tok : String) (htok : _args[s.i]? = some tok) (hw : whole_alias tok) :
    scan_body names _args s = parseopt names _args tok s := by
  rw [scan_body_eq names _args s tok htok]
  have hc : alias_candidates tok = [tok] := by
    unfold alias_candidates
    rcases hw with h | ⟨h1, h2⟩
    · simp [h]
    · by_cases h : starts_with tok "--" = true
      · simp [h]
      · simp [h, h1, h2]
  have hd : starts_with tok "-" = true := by
    rcases hw with h | ⟨h1, _⟩
    · exact starts_with_dash_of_dash_dash tok h
    · exact h1
  simp [hd, hc, parse_all_single]

/-! ## Repeated options and sub-argument consumption -/

/-- C5 (counterexample). With `-a` declaring one required slot, the run on
`[prog, -a, 1, -a, 2]` returns a map that holds `["1"]` for the option, the
values of its first occurrence, and not `["2"]`, those of its last. -/
theorem last_occurrence_does_not_win :
    parse_table table_required ["prog", "-a", "1", "-a", "2"] =
        .returned [] [(0, ["1"])] [] ∧
      umap_find [((0 : Nat), ["1"])] 0 ≠ some ["2"] := by
  decide

theorem umap_find_append (L M : List (Nat × List String)) (k : Nat) :
    umap_find (L ++ M) k =
      match umap_find L k with
      | some x => some x
      | none => umap_find M k := by
  induction L with
  | nil => rfl
  | cons hd tl ih =>
    obtain ⟨a, b⟩ := hd
    by_cases h : a = k
    · simp [umap_find, h]
    · simp [umap_find, h, ih]

theorem umap_find_eq_first_call (calls : List (Nat × List String)) (k : Nat) :
    umap_find calls k = first_call_for calls k := by
  induction calls with
  | nil => rfl
  | cons hd tl ih =>
    obtain ⟨a, b⟩ := hd
    by_cases h : a = k
    · simp [umap_find, first_call_for, h]
    · simp only [first_call_for] at ih
      simp [umap_find, first_call_for, h, ih]

theorem insert_agrees_with_call (m L : List (Nat × List String)) (k : Nat) (v : List String)
    (h : ∀ j, umap_find m j = umap_find L j) :
    ∀ j, umap_find (umap_insert m k v) j = umap_find (L ++ [(k, v)]) j := by
  intro j
  rw [umap_find_insert, umap_find_append_one, h j]

theorem readopt_loop_collected (_args : List String) (it : option_ptr) (g : String) :
    ∀ (slots : List option_arg_spec) (acc : List String) (s s2 : parse_state),
      readopt_loop _args it g slots acc s = .ret 0 s2 →
      ∃ vals s1, readopt_collected _args g slots acc s = some vals ∧
        s2 = setopt s1 it vals ∧ s1.options = s.options := by
  intro slots
  induction slots with
  | nil =>
    intro acc s s2 h
    simp only [readopt_loop, call_result.ret.injEq, true_and] at h
    exact ⟨acc, s, rfl, h.symm, rfl⟩
  | cons a rest ih =>
    intro acc s s2 h
    simp only [readopt_loop, next] at h
    simp only [readopt_collected, next]
    by_cases hend : s.i + 1 = _args.length
    · by_cases hreq : a.required = true
      · simp [hend, hreq] at h
      · simp only [hend, hreq, if_true, Bool.false_eq_true, if_false, gt_iff_lt, Int.lt_irrefl,
          call_result.ret.injEq, true_and] at h ⊢
        exact ⟨acc, _, rfl, h.symm, rfl⟩
    · have hpos : ((s.i + 1 : Nat) : Int) > 0 := by omega
      simp only [hend, if_false, hpos, if_true, Int.toNat_ofNat] at h ⊢
      cases hget : _args[s.i + 1]? with
      | none => simp [hget] at h
      | some v =>
        rw [hget] at h
        simp only at h ⊢
        obtain ⟨vals, s1, h1, h2, h3⟩ := ih _ _ _ h
        exact ⟨vals, s1, h1, h2, h3⟩

theorem parseopt_agrees (names : List (String × option_ptr)) (_args : List String)
    (g : String) (s s2 : parse_state) (L : List (Nat × List String))
    (h : parseopt names _args g s = .ret 0 s2)
    (hL : ∀ j, umap_find s.options j = umap_find L j) :
    ∀ j, umap_find s2.options j = umap_find (L ++ parseopt_calls names _args g s) j := by
  unfold parseopt at h
  unfold parseopt_calls
  cases hf : umap_find names g with
  | none => simp [hf] at h
  | some it =>
    rw [hf] at h
    simp only [readopt] at h
    obtain ⟨vals, s1, h1, h2, h3⟩ := readopt_loop_collected _args it g _ _ _ _ h
    simp only [h1, h2, setopt, h3]
    exact insert_agrees_with_call _ _ _ _ hL

theorem parse_all_agrees (names : List (String × option_ptr)) (_args : List String) :
    ∀ (gs : List String) (s s2 : parse_state) (L : List (Nat × List String)),
      parse_all names _args gs s = .ret 0 s2 →
      (∀ j, umap_find s.options j = umap_find L j) →
      ∀ j, umap_find s2.options j = umap_find (L ++ parse_all_calls names _args gs s) j := by
  intro gs
  induction gs with
  | nil =>
    intro s s2 L h hL
    simp only [parse_all, call_result.ret.injEq, true_and] at h
    subst h
    simpa [parse_all_calls] using hL
  | cons g gs ih =>
    intro s s2 L h hL
    simp only [parse_all] at h
    simp only [parse_all_calls]
    cases hp : parseopt names _args g s with
    | out_of_bounds k s1 => simp [hp] at h
    | ret r s1 =>
      rw [hp] at h
      simp only at h ⊢
      by_cases hr : r = 0
      · subst hr
        simp only [ne_eq, not_true_eq_false, if_false] at h ⊢
        have h1 := parseopt_agrees names _args g s s1 L hp hL
        have h2 := ih s1 s2 _ h h1
        simpa [List.append_assoc] using h2
      · simp [hr] at h

theorem scan_body_agrees (names : List (String × option_ptr)) (_args : List String)
    (s s2 : parse_state) (L : List (Nat × List String))
    (h : scan_body names _args s = .ret 0 s2)
    (hL : ∀ j, umap_find s.options j = umap_find L j) :
    ∀ j, umap_find s2.options j = umap_find (L ++ scan_body_calls names _args s) j := by
  unfold scan_body_calls
  cases hget : _args[s.i]? with
  | none => simp [scan_body, hget] at h
  | some tok =>
    rw [scan_body_eq names _args s tok hget] at h
    simp only
    by_cases hd : starts_with tok "-" = true
    · rw [if_pos hd] at h
      exact parse_all_agrees names _args _ s s2 L h hL
    · rw [if_neg hd] at h
      simp only [call_result.ret.injEq, true_and] at h
      subst h
      simpa [alias_candidates_positional tok hd, parse_all_calls] using hL

theorem scan_agrees (names : List (String × option_ptr)) (_args : List String) :
    ∀ (fuel : Nat) (s : parse_state) (L : List (Nat × List String)) (pos : List String)
      (opts : List (Nat × List String)) (out : List String),
      scan names _args fuel s = .returned pos opts out →
      (∀ j, umap_find s.options j = umap_find L j) →
      ∀ j, umap_find opts j = umap_find (L ++ scan_calls names _args fuel s) j := by
  intro fuel
  induction fuel with
  | zero => intro s L pos opts out h; simp [scan] at h
  | succ fuel ih =>
    intro s L pos opts out h hL
    simp only [scan] at h
    simp only [scan_calls]
    by_cases hi : s.i = _args.length
    · simp only [hi, ne_eq, not_true_eq_false, if_false, Outcome.returned.injEq] at h ⊢
      rw [← h.2.1]
      simpa using hL
    · simp only [ne_eq, hi, not_false_eq_true, if_true] at h ⊢
      cases hb : scan_body names _args s with
      | out_of_bounds k s1 => simp [hb] at h
      | ret r s1 =>
        rw [hb] at h
        simp only at h ⊢
        by_cases hr : r = 0
        · subst hr
          simp only [not_true_eq_false, if_false] at h ⊢
          have h1 := scan_body_agrees names _args s s1 L hb hL
          have h2 := ih _ _ _ _ _ h h1
          simpa [List.append_assoc] using h2
        · simp [hr] at h

theorem readopt_collected_fill (_args : List String) (g : String) :
    ∀ (slots : List option_arg_spec) (acc : List String) (s : parse_state),
      s.i + slots.length < _args.length →
      readopt_collected _args g slots acc s =
        some (acc ++ (_args.drop (s.i + 1)).take slots.length) := by
  intro slots
  induction slots with
  | nil =>
    intro acc s _
    simp [readopt_collected]
  | cons a rest ih =>
    intro acc s h
    simp only [List.length_cons] at h
    have hne : ¬ s.i + 1 = _args.length := by omega
    have hpos : ((s.i + 1 : Nat) : Int) > 0 := by omega
    have hlt : s.i + 1 < _args.length := by omega
    have hget : _args[s.i + 1]? = some _args[s.i + 1] := List.getElem?_eq_getElem hlt
    simp only [readopt_collected, next, hne, if_false, hpos, if_true, Int.toNat_ofNat, hget]
    rw [ih _ _ (by simp only []; omega)]
    have hdrop : _args.drop (s.i + 1) = _args[s.i + 1] :: _args.drop (s.i + 1 + 1) :=
      List.drop_eq_getElem_cons hlt
    rw [hdrop]
    simp only [List.length_cons, List.take_succ_cons, List.append_assoc, List.singleton_append]

/-- What a call of `setopt` holds for a whole alias token: when the scan loop
stands at a whole alias token of an option with `n` slots that is followed by
at least `n` tokens, the iteration makes exactly one call of `setopt`, for
that option and with the `n` tokens that follow the alias token. -/
theorem calls_at_whole_alias (names : List (String × option_ptr)) (_args : List String)
    (s : parse_state) (tok : String) (it : option_ptr)
    (htok : _args[s.i]? = some tok) (hw : whole_alias tok)
    (hfind : umap_find names tok = some it)
    (hfollow : s.i + it.spec.args.length < _args.length) :
    scan_body_calls names _args s =
      [(it.addr, (_args.drop (s.i + 1)).take it.spec.args.length)] := by
  have hc : alias_candidates tok = [tok] := by
    unfold alias_candidates
    rcases hw with h | ⟨h1, h2⟩
    · simp [h]
    · by_cases h : starts_with tok "--" = true
      · simp [h]
      · simp [h, h1, h2]
  simp only [scan_body_calls, htok, hc, parse_all_calls, parseopt_calls, hfind,
    readopt_collected_fill _args tok _ _ s hfollow, List.nil_append]
  cases parseopt names _args tok s with
  | ret r s1 => by_cases hr : r = 0 <;> simp [hr]
  | out_of_bounds k s1 => simp

/-- C5 (amended). First occurrence wins: for every option table and every
argv on which the parse returns, the returned options map holds for every
option the values passed to the first call of `setopt` for that option, that
is the sub-argument values collected at its first occurrence in the scan, as a
whole alias token or as a character of a bundle; an option for which no call
was made has no entry.  The calls made at later occurrences never change the
entry. -/
theorem returned_map_holds_the_first_collected_values (table : List option_spec)
    (_args pos : List String) (opts : List (Nat × List String)) (out : List String)
    (h : parse_table table _args = .returned pos opts out) :
    ∀ k, umap_find opts k = first_call_for (setopt_calls table _args) k := by
  intro k
  rw [← umap_find_eq_first_call]
  have h1 := scan_agrees (build_option_names table) _args (_args.length + 1)
    (initial_state _args) [] pos opts out h (fun j => rfl) k
  simpa [setopt_calls] using h1

theorem returned_map_holds_the_first_collected_values_witness :
    parse_table table_bundle ["prog", "-bab", "1", "x", "-a", "-b"] =
        .returned ["x"] [(1, []), (0, ["1"])] [] ∧
      setopt_calls table_bundle ["prog", "-bab", "1", "x", "-a", "-b"] =
        [(1, []), (0, ["1"]), (1, []), (0, ["-b"])] ∧
      ∀ k, umap_find [((1 : Nat), ([] : List String)), (0, ["1"])] k =
        first_call_for (setopt_calls table_bundle ["prog", "-bab", "1", "x", "-a", "-b"]) k :=
  ⟨by decide, by decide,
    returned_map_holds_the_first_collected_values table_bundle
      ["prog", "-bab", "1", "x", "-a", "-b"] ["x"] [(1, []), (0, ["1"])] [] (by decide)⟩

/-- C8 (counterexample). With `--set` declaring two slots, the second alias
token of `[prog, --set, k, v, --set, -x, w]` is followed by two tokens, yet
the values recorded for the option are `["k", "v"]` and not those two
tokens. -/
theorem recorded_values_are_not_always_the_next_tokens :
    parse_table table_pair ["prog", "--set", "k", "v", "--set", "-x", "w"] =
        .returned [] [(0, ["k", "v"])] [] ∧
      ((["prog", "--set", "k", "v", "--set", "-x", "w"] : List String).drop 5).take 2 =
        ["-x", "w"] ∧
      umap_find [((0 : Nat), ["k", "v"])] 0 ≠ some ["-x", "w"] := by
  decide

/-- C8 (amended). Sub-argument consumption: when the scan loop stands at a
whole alias token of an option with `n` slots that is followed by at least
`n` tokens, the loop body returns `0` having called `insert` on `options`
with exactly those `n` tokens in order (so they are recorded unless the
option already has an entry), leaves `arguements` and the output unchanged,
and the loop goes on at the token right after the `n`-th consumed one. -/
theorem subarguments_are_the_next_tokens (table : List option_spec) (_args : List String)
    (s : parse_state) (tok : String) (it : option_ptr) (fuel : Nat)
    (htok : _args[s.i]? = some tok) (hw : whole_alias tok)
    (hfind : umap_find (build_option_names table) tok = some it)
    (hfollow : s.i + it.spec.args.length < _args.length) :
    scan_body (build_option_names table) _args s =
        .ret 0 { i := s.i + it.spec.args.length
                 options := umap_insert s.options it.addr
                   ((_args.drop (s.i + 1)).take it.spec.args.length)
                 arguements := s.arguements
                 out := s.out } ∧
      scan (build_option_names table) _args (fuel + 1) s =
        scan (build_option_names table) _args fuel
          { i := s.i + it.spec.args.length + 1
            options := umap_insert s.options it.addr
              ((_args.drop (s.i + 1)).take it.spec.args.length)
            arguements := s.arguements
            out := s.out } ∧
      (umap_find s.options it.addr = none →
        umap_find (umap_insert s.options it.addr
            ((_args.drop (s.i + 1)).take it.spec.args.length)) it.addr =
          some ((_args.drop (s.i + 1)).take it.spec.args.length)) := by
  have hbody := scan_body_whole (build_option_names table) _args s tok htok hw
  rw [parseopt_fill _ _ tok it s hfind hfollow] at hbody
  have hi : s.i ≠ _args.length := by omega
  refine ⟨hbody, ?_, ?_⟩
  · rw [scan, if_pos hi, hbody]
    simp
  · intro hnone
    simp [umap_find_insert, hnone]

theorem subarguments_are_the_next_tokens_witness :
    scan_body (build_option_names table_pair) ["prog", "--set", "-k", "v", "w"]
        (initial_state ["prog", "--set", "-k", "v", "w"]) =
        .ret 0 { i := 3, options := [(0, ["-k", "v"])], arguements := [], out := [] } ∧
      scan (build_option_names table_pair) ["prog", "--set", "-k", "v", "w"] (5 + 1)
          (initial_state ["prog", "--set", "-k", "v", "w"]) =
        scan (build_option_names table_pair) ["prog", "--set", "-k", "v", "w"] 5
          { i := 4, options := [(0, ["-k", "v"])], arguements := [], out := [] } ∧
      (umap_find (initial_state ["prog", "--set", "-k", "v", "w"]).options 0 = none →
        umap_find [((0 : Nat), ["-k", "v"])] 0 = some ["-k", "v"]) :=
  subarguments_are_the_next_tokens table_pair ["prog", "--set", "-k", "v", "w"]
    (initial_state ["prog", "--set", "-k", "v", "w"]) "--set"
    { addr := 0
      spec := { full_name := "set", names := ["--set"],
                args := [ { name := "key" }, { name := "value" } ] } }
    5 (by decide) (Or.inl (by decide)) (by decide) (by decide)

/-! ## Running out of tokens while reading sub-arguments -/

theorem readopt_loop_filled (_args : List String) (it : option_ptr) (g : String)
    (more : List option_arg_spec) :
    ∀ (filled : List option_arg_spec) (acc : List String) (s : parse_state),
      s.i + filled.length < _args.length →
      readopt_loop _args it g (filled ++ more) acc s =
        readopt_loop _args it g more (acc ++ (_args.drop (s.i + 1)).take filled.length)
          { s with i := s.i + filled.length } := by
  intro filled
  induction filled with
  | nil =>
    intro acc s _
    simp
  | cons a rest ih =>
    intro acc s h
    simp only [List.length_cons] at h
    have hne : ¬ s.i + 1 = _args.length := by omega
    have hpos : ((s.i + 1 : Nat) : Int) > 0 := by omega
    have hlt : s.i + 1 < _args.length := by omega
    have hget : _args[s.i + 1]? = some _args[s.i + 1] := List.getElem?_eq_getElem hlt
    rw [List.cons_append]
    simp only [readopt_loop, next, hne, if_false, hpos, if_true, Int.toNat_ofNat, hget]
    rw [ih _ _ (by simp only []; omega)]
    have hdrop : _args.drop (s.i + 1) = _args[s.i + 1] :: _args.drop (s.i + 1 + 1) :=
      List.drop_eq_getElem_cons hlt
    rw [hdrop]
    simp only [List.length_cons, List.take_succ_cons, List.append_assoc, List.singleton_append]
    have : s.i + 1 + rest.length = s.i + (rest.length + 1) := by omega
    rw [this]

/-- The part of the missing-argument behaviour that holds: when the scan loop
stands at a whole alias token and the tokens that follow fill the slots before
a required slot `a` and no token is left for `a`, the run exits with status
`-1` after printing the missing-argument line with the name of `a` and the
alias, and the failed-to-parse line. -/
theorem missing_required_at_whole_alias (names : List (String × option_ptr))
    (_args : List String) (s : parse_state) (tok : String) (it : option_ptr) (fuel : Nat)
    (filled more : List option_arg_spec) (a : option_arg_spec)
    (htok : _args[s.i]? = some tok) (hw : whole_alias tok)
    (hfind : umap_find names tok = some it)
    (hslots : it.spec.args = filled ++ a :: more) (hreq : a.required = true)
    (hend : s.i + filled.length + 1 = _args.length) :
    scan names _args (fuel + 1) s =
      .exited (-1) (s.out ++ [missing_line a.name tok, failed_line tok]) := by
  have hi : s.i ≠ _args.length := by omega
  rw [scan, if_pos hi, scan_body_whole _ _ s tok htok hw]
  simp only [parseopt, hfind, readopt, hslots]
  rw [readopt_loop_filled _ _ _ _ _ _ _ (by omega)]
  simp [readopt_loop, next, hend, hreq, missing_line, failed_line]

/-- What happens at an optional slot: when the scan loop stands at a whole
alias token and no token is left for an optional slot `a`, `readopt` returns
`0` with `i` equal to `_nargs`, the `++i` of the loop steps past `_nargs`, and
the next test `i != _nargs` lets the loop read `_args[_nargs + 1]`. -/
theorem optional_at_whole_alias_reads_out_of_bounds (names : List (String × option_ptr))
    (_args : List String) (s : parse_state) (tok : String) (it : option_ptr) (fuel : Nat)
    (filled more : List option_arg_spec) (a : option_arg_spec)
    (htok : _args[s.i]? = some tok) (hw : whole_alias tok)
    (hfind : umap_find names tok = some it)
    (hslots : it.spec.args = filled ++ a :: more) (hreq : a.required = false)
    (hend : s.i + filled.length + 1 = _args.length) :
    scan names _args (fuel + 2) s = .out_of_bounds (_args.length + 1) s.out := by
  have hi : s.i ≠ _args.length := by omega
  rw [scan, if_pos hi, scan_body_whole _ _ s tok htok hw]
  simp only [parseopt, hfind, readopt, hslots]
  rw [readopt_loop_filled _ _ _ _ _ _ _ (by omega)]
  have hnone : _args[_args.length + 1]? = none := List.getElem?_eq_none (by omega)
  simp [readopt_loop, next, hend, hreq, scan, scan_body, setopt, hnone]

/-- C6 (failing input). With `-a` declaring one optional slot and `-b` one
required slot, the run on `[prog, -ab]` resolves `-b` when no token is left
for its required slot; instead of the missing-argument error the run reads
`_args[3]` of a vector of two elements. -/
theorem required_slot_after_end_reads_out_of_bounds :
    parse_table table_mixed ["prog", "-ab"] = .out_of_bounds 3 [] := by
  decide

/-- C7 (failing input). With `-a` declaring one optional slot, the run on
`[prog, -a]` does not return: after `readopt` has returned `0` the scan loop
reads `_args[3]` of a vector of two elements. -/
theorem optional_slot_at_end_reads_out_of_bounds :
    parse_table table_optional ["prog", "-a"] = .out_of_bounds 3 [] := by
  decide

/-! ## Exit status and diagnostics -/

/-- C9 (counterexample). An unrecognized option and a missing required
argument end the run with the same exit status `-1`. -/
theorem error_kinds_share_the_exit_status :
    parse_table table_required ["prog", "-z"] =
        .exited (-1) ["ERROR : unrecognized option \"-z\""] ∧
      parse_table table_required ["prog", "-a"] =
        .exited (-1) ["ERROR : missing required argument \"x\" for option \"-a\"",
          "ERROR : failed to parse option \"-a\""] := by
  decide

/-- C9 (amended). For every option table and every argv, a run of
`parse_command_line` that exits does so with status `-1`, whatever the kind
of error. -/
theorem exit_status_is_minus_one (table : List option_spec) (_args : List String)
    (status : Int) (out : List String)
    (h : parse_table table _args = .exited status out) : status = -1 :=
  (scan_exited _ _ _ _ _ _ h).1

theorem exit_status_is_minus_one_witness :
    parse_table table_mixed ["prog", "x", "-b"] =
        .exited (-1) [missing_line "y" "-b", failed_line "-b"] ∧
      (-1 : Int) = -1 :=
  ⟨by decide,
    exit_status_is_minus_one table_mixed ["prog", "x", "-b"] (-1)
      [missing_line "y" "-b", failed_line "-b"] (by decide)⟩

/-- C10 (counterexample). With `--set` declaring two required slots, the run
on `[prog, --set, k]` prints two diagnostic lines before it exits. -/
theorem missing_argument_prints_two_lines :
    parse_table table_pair ["prog", "--set", "k"] =
        .exited (-1) ["ERROR : missing required argument \"value\" for option \"--set\"",
          "ERROR : failed to parse option \"--set\""] ∧
      ["ERROR : missing required argument \"value\" for option \"--set\"",
        "ERROR : failed to parse option \"--set\""].length ≠ 1 := by
  decide

/-- C10 (amended). For every option table and every argv on which the run
exits, the status is not zero and the whole output of the run is either the
single unrecognized-option line, or the two lines of a missing required
argument: the missing-argument line followed by the failed-to-parse line. -/
theorem diagnostics_of_a_failed_run (table : List option_spec) (_args : List String)
    (status : Int) (out : List String)
    (h : parse_table table _args = .exited status out) :
    status ≠ 0 ∧
      ((∃ g, out = [unrecognized_line g]) ∨
        (∃ slot g, out = [missing_line slot g, failed_line g])) := by
  have h1 := scan_exited _ _ _ _ _ _ h
  refine ⟨by omega, ?_⟩
  by_cases hlen : _args.length = 1
  · unfold parse_table at h
    simp [scan, initial_state, hlen] at h
  · simpa [initial_state, hlen] using h1.2

theorem diagnostics_of_a_failed_run_witness :
    parse_table table_required ["prog", "-a", "1", "-a"] =
        .exited (-1) [missing_line "x" "-a", failed_line "-a"] ∧
      ((-1 : Int) ≠ 0 ∧
        ((∃ g, [missing_line "x" "-a", failed_line "-a"] = [unrecognized_line g]) ∨
          (∃ slot g, [missing_line "x" "-a", failed_line "-a"] =
            [missing_line slot g, failed_line g]))) :=
  ⟨by decide,
    diagnostics_of_a_failed_run table_required ["prog", "-a", "1", "-a"] (-1)
      [missing_line "x" "-a", failed_line "-a"] (by decide)⟩

/-! ## The alias index: owners and duplicates -/

theorem option_names_inner_find (addr : Nat) (v : option_spec) (g : String) :
    ∀ (ns : List String) (acc : List (String × option_ptr)),
      umap_find (option_names_inner addr v ns acc) g =
        match umap_find acc g with
        | some x => some x
        | none => if g ∈ ns then some { addr := addr, spec := v } else none := by
  intro ns
  induction ns with
  | nil =>
    intro acc
    cases h : umap_find acc g <;> simp [option_names_inner, h]
  | cons n ns ih =>
    intro acc
    simp only [option_names_inner, ih, umap_find_insert]
    cases umap_find acc g with
    | some x => rfl
    | none =>
      by_cases e : n = g
      · simp [e]
      · have e' : ¬ g = n := fun h => e h.symm
        simp [e, e']

theorem option_names_outer_find (g : String) :
    ∀ (vs : List option_spec) (addr : Nat) (acc : List (String × option_ptr)),
      umap_find (option_names_outer addr vs acc) g =
        match umap_find acc g with
        | some x => some x
        | none => first_owner addr vs g := by
  intro vs
  induction vs with
  | nil =>
    intro addr acc
    cases h : umap_find acc g <;> simp [option_names_outer, first_owner, h]
  | cons v vs ih =>
    intro addr acc
    simp only [option_names_outer, ih, option_names_inner_find, first_owner]
    cases umap_find acc g with
    | some x => rfl
    | none =>
      by_cases e : g ∈ v.names
      · simp [e]
      · simp [e]

/-- C11. The alias index of the built-in table: the aliases declared in
`defined_options` are the nine listed ones and are pairwise distinct; the keys
of `option_names` are exactly these aliases; an alias is mapped to a pointer
exactly when the pointer is the option of the table, at its index, that
declares the alias; and no built-in option declares a sub-argument slot. -/
theorem alias_index_of_the_built_in_table :
    defined_options.flatMap (fun o => o.names) =
        ["-m", "--minimal", "-e", "--echo", "-h", "--help", "-v", "--verbose",
          "--debug-ignored"] ∧
      (defined_options.flatMap (fun o => o.names)).Nodup ∧
      option_names.map Prod.fst = defined_options.flatMap (fun o => o.names) ∧
      (∀ g it, umap_find option_names g = some it ↔
        (defined_options[it.addr]? = some it.spec ∧ g ∈ it.spec.names)) ∧
      (∀ o ∈ defined_options, o.args = []) := by
  refine ⟨by decide, by decide, by decide, ?_, by decide⟩
  intro g it
  constructor
  · exact build_option_names_find defined_options g it
  · rintro ⟨h1, h2⟩
    obtain ⟨it2, h3, h4⟩ := option_names_owner it.addr it.spec g h1 h2
    have h5 := (build_option_names_find defined_options g it2 h3).1
    rw [h4, h1] at h5
    have : it2 = it := by
      cases it2
      cases it
      simp only [Option.some.injEq] at h5
      simp only at h4
      simp [h4, h5]
    rw [← this]
    exact h3

/-- C12 (counterexample). For a table in which two different options declare
the alias `-x`, the construction of the alias index does not fail: it yields
an index, in which `-x` points to the first of the two options. -/
theorem duplicate_alias_is_not_rejected :
    build_option_names table_duplicate =
        [("-x", { addr := 0, spec := { full_name := "first", names := ["-x"] } }),
         ("--second",
            { addr := 1, spec := { full_name := "second", names := ["-x", "--second"] } })] ∧
      table_duplicate[0]? ≠ table_duplicate[1]? := by
  decide

theorem first_owner_first (g : String) :
    ∀ (vs : List option_spec) (addr k : Nat) (o : option_spec),
      vs[k]? = some o → g ∈ o.names →
      (∀ j o', j < k → vs[j]? = some o' → g ∉ o'.names) →
      first_owner addr vs g = some { addr := addr + k, spec := o } := by
  intro vs
  induction vs with
  | nil =>
    intro addr k o h
    simp at h
  | cons v vs ih =>
    intro addr k o hk hg hfirst
    cases k with
    | zero =>
      simp only [List.getElem?_cons_zero, Option.some.injEq] at hk
      subst hk
      simp [first_owner, hg]
    | succ k =>
      have hv : g ∉ v.names := hfirst 0 v (by omega) (by simp)
      simp only [List.getElem?_cons_succ] at hk
      simp only [first_owner, hv, if_false]
      rw [ih (addr + 1) k o hk hg (fun j o' hj h => hfirst (j + 1) o' (by omega) (by simpa using h))]
      congr 2
      omega

/-- C12 (amended). For every option table the construction of the alias index
yields an index, and looking an alias up in it gives the first option of the
table, in table order, that declares the alias: a later declaration of the
same alias is ignored. -/
theorem alias_index_keeps_the_first_owner (table : List option_spec) (g : String) :
    umap_find (build_option_names table) g = first_owner 0 table g ∧
      ∀ k o, table[k]? = some o → g ∈ o.names →
        (∀ j o', j < k → table[j]? = some o' → g ∉ o'.names) →
        umap_find (build_option_names table) g = some { addr := k, spec := o } := by
  have h : umap_find (build_option_names table) g = first_owner 0 table g := by
    simp [build_option_names, option_names_outer_find, umap_find]
  refine ⟨h, ?_⟩
  intro k o hk hg hfirst
  rw [h, first_owner_first g table 0 k o hk hg hfirst]
  simp

/-! ## Termination and the index of the scan loop -/

theorem parse_all_zero_index (names : List (String × option_ptr)) (hz : zero_arg_index names)
    (_args : List String) :
    ∀ (gs : List String) (s : parse_state),
      ∃ r s1, parse_all names _args gs s = .ret r s1 ∧ s1.i = s.i := by
  intro gs
  induction gs with
  | nil => intro s; exact ⟨0, s, rfl, rfl⟩
  | cons g gs ih =>
    intro s
    simp only [parse_all, parseopt_zero names hz]
    cases umap_find names g with
    | none => exact ⟨-1, { s with out := s.out ++ [unrecognized_line g] }, by simp, rfl⟩
    | some it =>
      obtain ⟨r, s1, h1, h2⟩ := ih (setopt s it [])
      exact ⟨r, s1, by simpa using h1, by simpa [setopt] using h2⟩

theorem scan_body_zero_index (names : List (String × option_ptr)) (hz : zero_arg_index names)
    (_args : List String) (s : parse_state) (hlt : s.i < _args.length) :
    ∃ r s1, scan_body names _args s = .ret r s1 ∧ s1.i = s.i := by
  have hget : _args[s.i]? = some _args[s.i] := List.getElem?_eq_getElem hlt
  rw [scan_body_eq names _args s _ hget]
  split
  · exact parse_all_zero_index names hz _args _ s
  · exact ⟨0, _, rfl, rfl⟩

theorem scan_trace_zero (names : List (String × option_ptr)) (hz : zero_arg_index names)
    (_args : List String) : ∀ (fuel : Nat) (s : parse_state),
    s.i ≤ _args.length → _args.length - s.i < fuel →
    (scan_trace names _args fuel s).1 ≤ _args.length - s.i ∧
      (scan_trace names _args fuel s).2 ≤ _args.length ∧
      (∀ pos opts out, scan names _args fuel s = .returned pos opts out →
        (scan_trace names _args fuel s).2 = _args.length) ∧
      (∀ status out, scan names _args fuel s = .exited status out →
        (scan_trace names _args fuel s).2 < _args.length) := by
  intro fuel
  induction fuel with
  | zero => intro s _ h; omega
  | succ fuel ih =>
    intro s hle hfuel
    by_cases hi : s.i = _args.length
    · simp [scan_trace, scan, hi]
    · have hlt : s.i < _args.length := by omega
      obtain ⟨r, s1, hbody, hs1⟩ := scan_body_zero_index names hz _args s hlt
      simp only [scan_trace, scan, ne_eq, hi, not_false_eq_true, if_true, hbody]
      by_cases hr : r = 0
      · simp only [hr, not_true_eq_false, if_false]
        obtain ⟨h1, h2, h3, h4⟩ := ih { s1 with i := s1.i + 1 }
          (by simp only []; omega) (by simp only []; omega)
        simp only [] at h1
        exact ⟨by omega, h2, h3, h4⟩
      · simp only [hr, not_false_eq_true, if_true]
        refine ⟨by omega, by omega, ?_, ?_⟩
        · intro pos opts out h
          cases h
        · intro status out _
          omega

/-- C13 (counterexample). On `[prog, -z]`, an argv of `n = 2` tokens, the run
exits on the unrecognized option inside the first iteration: the scan loop is
left with its index equal to `1`, not to `n`. -/
theorem loop_left_by_exit_before_the_end :
    parse_command_line ["prog", "-z"] =
        .exited (-1) ["ERROR : unrecognized option \"-z\""] ∧
      scan_trace option_names ["prog", "-z"] (2 + 1) (initial_state ["prog", "-z"]) = (1, 1) ∧
      (1 : Nat) ≠ (["prog", "-z"] : List String).length := by
  decide

/-- C13 (amended). For every option table and every argv the model of
`parse_command_line` does not run out of fuel.  For the built-in table and an
argv of `n` tokens including the program name, the run returns a result or
exits with status `-1` on an unrecognized option; the scan loop starts at most
`n - 1` iterations and its index never exceeds `n`; when the run returns, the
loop is left with its index equal to `n`, and when the run exits, the loop is
left with its index below `n`. -/
theorem parse_terminates_within_the_argument_list (prog : String) (rest : List String) :
    (∀ table, parse_table table (prog :: rest) ≠ .out_of_fuel) ∧
      ((∃ pos opts out, parse_command_line (prog :: rest) = .returned pos opts out) ∨
        (∃ g, parse_command_line (prog :: rest) = .exited (-1) [unrecognized_line g])) ∧
      (scan_trace option_names (prog :: rest) ((prog :: rest).length + 1)
          (initial_state (prog :: rest))).1 ≤ (prog :: rest).length - 1 ∧
      (scan_trace option_names (prog :: rest) ((prog :: rest).length + 1)
          (initial_state (prog :: rest))).2 ≤ (prog :: rest).length ∧
      (∀ pos opts out, parse_command_line (prog :: rest) = .returned pos opts out →
        (scan_trace option_names (prog :: rest) ((prog :: rest).length + 1)
          (initial_state (prog :: rest))).2 = (prog :: rest).length) ∧
      (∀ status out, parse_command_line (prog :: rest) = .exited status out →
        (scan_trace option_names (prog :: rest) ((prog :: rest).length + 1)
          (initial_state (prog :: rest))).2 < (prog :: rest).length) := by
  have ht := scan_trace_zero option_names zero_arg_option_names (prog :: rest)
    ((prog :: rest).length + 1) (initial_state (prog :: rest))
    (by simp [initial_state]) (by simp [initial_state]; omega)
  obtain ⟨h1, h2, h3, h4⟩ := ht
  refine ⟨fun table => parse_table_fuel table _, ?_, ?_, h2, h3, h4⟩
  · unfold parse_command_line
    rw [parse_table_zero defined_options (by decide)]
    cases first_unknown (build_option_names defined_options) rest with
    | some g => exact Or.inr ⟨g, rfl⟩
    | none => exact Or.inl ⟨_, _, _, rfl⟩
  · simpa [initial_state] using h1

/-! ## Consumption inside a bundle, the hint, lone dashes, index safety -/

/-- C15. Mid-bundle consumption: for every option table in which `-a`
resolves to an option with one slot (required or not) and `-b` to an option
without slots, the run on `[prog, -ab, X]` returns with no positional, `-a`
recorded with the values `[X]` and `-b` recorded with no values: the bundled
character `a` consumes the whole next token before `b` is resolved. -/
theorem bundled_option_consumes_the_next_token (table : List option_spec)
    (prog X : String) (ita itb : option_ptr) (slot : option_arg_spec)
    (ha : umap_find (build_option_names table) "-a" = some ita)
    (hslot : ita.spec.args = [slot])
    (hb : umap_find (build_option_names table) "-b" = some itb)
    (hzero : itb.spec.args = []) :
    parse_table table [prog, "-ab", X] =
        .returned [] [(ita.addr, [X]), (itb.addr, [])] [] ∧
      ita.addr ≠ itb.addr := by
  have hne : ita.addr ≠ itb.addr := by
    intro e
    have h1 := (build_option_names_find table _ _ ha).1
    have h2 := (build_option_names_find table _ _ hb).1
    rw [e, h2] at h1
    simp only [Option.some.injEq] at h1
    rw [← h1, hzero] at hslot
    cases hslot
  refine ⟨?_, hne⟩
  have hd : starts_with "-ab" "-" = true := by decide
  have hc : alias_candidates "-ab" = ["-a", "-b"] := by decide
  have hinit : initial_state [prog, "-ab", X] =
      { i := 1, options := [], arguements := [], out := [] } := rfl
  have h1 := parseopt_fill (build_option_names table) [prog, "-ab", X] "-a" ita
    { i := 1, options := [], arguements := [], out := [] } ha (by simp [hslot])
  have h2 := parseopt_fill (build_option_names table) [prog, "-ab", X] "-b" itb
    { i := 2, options := [(ita.addr, [X])], arguements := [], out := [] } hb
    (by simp [hzero])
  have h3 : umap_insert ([] : List (Nat × List String)) ita.addr [X] = [(ita.addr, [X])] := rfl
  have h4 : umap_insert [(ita.addr, [X])] itb.addr ([] : List String) =
      [(ita.addr, [X]), (itb.addr, [])] := by
    simp [umap_insert, umap_find, hne]
  simp only [hslot, List.length_cons, List.length_nil, List.drop_succ_cons, List.drop_zero,
    List.take_succ_cons, List.take_zero, h3, Nat.zero_add, Nat.reduceAdd] at h1
  simp only [hzero, List.length_nil, List.take_zero, h4, Nat.add_zero] at h2
  have hbody : scan_body (build_option_names table) [prog, "-ab", X]
      { i := 1, options := [], arguements := [], out := [] } =
      .ret 0 { i := 2, options := [(ita.addr, [X]), (itb.addr, [])], arguements := [],
               out := [] } := by
    rw [scan_body_eq _ _ _ "-ab" rfl, if_pos hd, hc]
    simp only [parse_all, h1, h2, ne_eq, not_true_eq_false, if_false]
  unfold parse_table
  rw [hinit]
  change scan _ [prog, "-ab", X] (2 + 1 + 1) _ = _
  rw [scan, if_pos (by simp), hbody]
  simp only [ne_eq, not_true_eq_false, if_false]
  rw [scan, if_neg (by simp)]

theorem bundled_option_consumes_the_next_token_witness :
    parse_table table_bundle ["prog", "-ab", "-value"] =
        .returned [] [(0, ["-value"]), (1, [])] [] ∧
      (0 : Nat) ≠ 1 :=
  bundled_option_consumes_the_next_token table_bundle "prog" "-value"
    { addr := 0, spec := { full_name := "a", names := ["-a"], args := [ { name := "x" } ] } }
    { addr := 1, spec := { full_name := "b", names := ["-b"] } }
    { name := "x" } (by decide) rfl (by decide) rfl

theorem println_err_ne_hint (m : String) :
    println_err m ≠ "use -h or --help for help" := by
  intro h
  have h1 := congrArg String.data h
  simp only [println_err, String.data_append] at h1
  simp at h1

theorem scan_printed (names : List (String × option_ptr)) (_args : List String) :
    ∀ (fuel : Nat) (s : parse_state) (l : String),
      l ∈ (scan names _args fuel s).printed → l ∈ s.out ∨ ∃ m, l = println_err m := by
  intro fuel
  induction fuel with
  | zero => intro s l h; simp [scan, Outcome.printed] at h
  | succ fuel ih =>
    intro s l h
    simp only [scan] at h
    by_cases hi : s.i = _args.length
    · simp only [hi, ne_eq, not_true_eq_false, if_false, Outcome.printed] at h
      exact Or.inl h
    · simp only [ne_eq, hi, not_false_eq_true, if_true] at h
      have hok := scan_body_ok names _args s
      cases hr : scan_body names _args s with
      | out_of_bounds k s1 =>
        rw [hr] at h hok
        simp only [call_ok] at hok
        simp only [Outcome.printed, hok] at h
        exact Or.inl h
      | ret v s1 =>
        rw [hr] at h hok
        simp only at h
        obtain ⟨-, -, h3⟩ := hok
        by_cases hv : v = 0
        · simp only [hv, ne_eq, not_true_eq_false, if_false] at h
          rcases h3 with ⟨-, h3⟩ | ⟨h3, -⟩
          · have := ih _ l h
            simpa [h3] using this
          · omega
        · simp only [ne_eq, hv, not_false_eq_true, if_true, Outcome.printed] at h
          rcases h3 with ⟨h3, -⟩ | ⟨-, ⟨g, h4⟩ | ⟨slot, g, h4⟩⟩
          · exact absurd h3 hv
          · rw [h4] at h
            simp only [List.mem_append, List.mem_singleton] at h
            rcases h with h | h
            · exact Or.inl h
            · exact Or.inr ⟨_, h⟩
          · rw [h4] at h
            simp only [List.mem_append, List.mem_cons, List.mem_singleton, List.not_mem_nil,
              or_false] at h
            rcases h with h | h | h
            · exact Or.inl h
            · exact Or.inr ⟨_, h⟩
            · exact Or.inr ⟨_, h⟩

/-- C16. Zero-argument invocation: for every option table, the run on an argv
that consists of the program name only returns an empty positional list and
an empty options map and has printed the hint line, exactly once and nothing
else; the run on an argv with at least one token after the program name never
prints the hint line, however it ends. -/
theorem hint_only_without_arguments (table : List option_spec) (prog : String) :
    parse_table table [prog] = .returned [] [] ["use -h or --help for help"] ∧
      (["use -h or --help for help"] : List String).count "use -h or --help for help" = 1 ∧
      ∀ (t : String) (ts : List String),
        "use -h or --help for help" ∉ (parse_table table (prog :: t :: ts)).printed := by
  refine ⟨rfl, by decide, ?_⟩
  intro t ts h
  rcases scan_printed _ _ _ _ _ h with h1 | ⟨m, h1⟩
  · simp [initial_state] at h1
  · exact println_err_ne_hint m h1.symm

theorem alias_candidates_lone_dash : alias_candidates "-" = [] := by
  decide

theorem all_candidates_without_lone_dashes (rest : List String) :
    all_candidates (rest.filter (fun t => t ≠ "-")) = all_candidates rest := by
  induction rest with
  | nil => rfl
  | cons t ts ih =>
    by_cases h : t = "-"
    · subst h
      simp only [all_candidates, List.flatMap_cons] at ih ⊢
      simpa [alias_candidates_lone_dash] using ih
    · simp only [all_candidates, List.flatMap_cons] at ih ⊢
      simpa [h, List.flatMap_cons] using ih

theorem positionals_without_lone_dashes (rest : List String) :
    (rest.filter (fun t => t ≠ "-")).filter (fun t => !starts_with t "-") =
      rest.filter (fun t => !starts_with t "-") := by
  rw [List.filter_filter]
  congr 1
  funext t
  by_cases h : t = "-"
  · subst h
    decide
  · simp [h]

/-- C18 (counterexample). With `-a` declaring one required slot, the token
`-` of `[prog, -a, -]` is consumed as the value of `-a` and the run returns;
with the `-` tokens removed the run exits with a missing required argument.
With the built-in table, `[prog, -]` and `[prog]` return the same
positionals and options, but only the second prints the hint. -/
theorem lone_dash_can_be_a_sub_argument :
    parse_table table_required ["prog", "-a", "-"] = .returned [] [(0, ["-"])] [] ∧
      parse_table table_required ((["prog", "-a", "-"] : List String).filter (fun t => t ≠ "-")) =
        .exited (-1) ["ERROR : missing required argument \"x\" for option \"-a\"",
          "ERROR : failed to parse option \"-a\""] ∧
      parse_command_line ["prog", "-"] = .returned [] [] [] ∧
      parse_command_line ["prog"] = .returned [] [] ["use -h or --help for help"] := by
  decide

/-- C18 (amended). For every option table whose options take no
sub-argument and every argv with its program name, removing all tokens equal
to `-` from `argv[1:]` does not change the result of the parse: the same
failure, or the same positionals and the same options map; only the hint line
is then printed when no token is left after the program name. -/
theorem lone_dashes_are_dropped (table : List option_spec)
    (hz : ∀ o ∈ table, o.args = []) (prog : String) (rest : List String) :
    parse_table table (prog :: rest.filter (fun t => t ≠ "-")) =
      match parse_table table (prog :: rest) with
      | .returned pos opts _ =>
        .returned pos opts
          (if rest.filter (fun t => t ≠ "-") = [] then ["use -h or --help for help"] else [])
      | r => r := by
  rw [parse_table_zero table hz, parse_table_zero table hz]
  simp only [first_unknown, all_candidates_without_lone_dashes,
    positionals_without_lone_dashes]
  cases List.find? (fun g => (umap_find (build_option_names table) g).isNone)
    (all_candidates rest) with
  | some g => rfl
  | none => rfl

theorem lone_dashes_are_dropped_witness :
    parse_table defined_options ("prog" :: (["-", "-v", "-", "x"] : List String).filter
        (fun t => t ≠ "-")) =
      match parse_table defined_options ("prog" :: ["-", "-v", "-", "x"]) with
      | .returned pos opts _ =>
        .returned pos opts
          (if (["-", "-v", "-", "x"] : List String).filter (fun t => t ≠ "-") = [] then
            ["use -h or --help for help"] else [])
      | r => r :=
  lone_dashes_are_dropped defined_options (by decide) "prog" ["-", "-v", "-", "x"]

theorem loop_head_zero_index (table : List option_spec) (hz : ∀ o ∈ table, o.args = [])
    (prog : String) (rest : List String) (s : parse_state)
    (h : loop_head table (prog :: rest) s) : 1 ≤ s.i ∧ s.i ≤ (prog :: rest).length := by
  induction h with
  | start => simp [initial_state]
  | step s s1 _ hi hbody ih =>
    have hlt : s.i < (prog :: rest).length := by omega
    obtain ⟨r, s2, h1, h2⟩ :=
      scan_body_zero_index _ (zero_arg_index_of_table table hz) (prog :: rest) s hlt
    rw [hbody] at h1
    cases h1
    simp only []
    omega

/-- C19. Index safety: for the built-in option table and every argument
vector that starts with the program name, the run never reads `_args` out of
bounds; the scan loop tests its condition only with `1 ≤ i ≤ _args.size()`,
and whenever the body runs (`i != _nargs`) its read `_args[i]` has
`1 ≤ i < _args.size()` and the body returns without any other read of
`_args` going out of bounds. -/
theorem reads_stay_inside_the_argument_vector (prog : String) (rest : List String) :
    (∀ k out, parse_command_line (prog :: rest) ≠ .out_of_bounds k out) ∧
      (∀ s, loop_head defined_options (prog :: rest) s →
        1 ≤ s.i ∧ s.i ≤ (prog :: rest).length ∧
        (s.i ≠ (prog :: rest).length →
          s.i < (prog :: rest).length ∧
          ∃ tok r s1, (prog :: rest)[s.i]? = some tok ∧
            scan_body option_names (prog :: rest) s = .ret r s1)) := by
  constructor
  · intro k out h
    unfold parse_command_line at h
    rw [parse_table_zero defined_options (by decide)] at h
    cases hf : first_unknown (build_option_names defined_options) rest with
    | some g => rw [hf] at h; cases h
    | none => rw [hf] at h; cases h
  · intro s hs
    obtain ⟨h1, h2⟩ := loop_head_zero_index defined_options (by decide) prog rest s hs
    refine ⟨h1, h2, ?_⟩
    intro hne
    have hlt : s.i < (prog :: rest).length := by omega
    obtain ⟨r, s1, h3, -⟩ :=
      scan_body_zero_index option_names zero_arg_option_names (prog :: rest) s hlt
    exact ⟨hlt, _, r, s1, List.getElem?_eq_getElem hlt, h3⟩

/-! ## `rmain`: the help branch and the copy loop -/

theorem options_contains_at_verbose (opts : List (Nat × List String)) :
    options_contains_at opts "--verbose" = some (umap_find opts 3).isSome := by
  have h : umap_find option_names "--verbose" =
      some { addr := 3, spec := defined_options[3] } := by decide
  simp [options_contains_at, h]

theorem options_contains_at_debug_ignored (opts : List (Nat × List String)) :
    options_contains_at opts "--debug-ignored" = some (umap_find opts 4).isSome := by
  have h : umap_find option_names "--debug-ignored" =
      some { addr := 4, spec := defined_options[4] } := by decide
  simp [options_contains_at, h]

theorem options_contains_at_minimal (opts : List (Nat × List String)) :
    options_contains_at opts "--minimal" = some (umap_find opts 0).isSome := by
  have h : umap_find option_names "--minimal" =
      some { addr := 0, spec := defined_options[0] } := by decide
  simp [options_contains_at, h]

theorem options_contains_at_echo (opts : List (Nat × List String)) :
    options_contains_at opts "--echo" = some (umap_find opts 1).isSome := by
  have h : umap_find option_names "--echo" =
      some { addr := 1, spec := defined_options[1] } := by decide
  simp [options_contains_at, h]

theorem options_contains_at_help (opts : List (Nat × List String)) :
    options_contains_at opts "--help" = some (umap_find opts 2).isSome := by
  have h : umap_find option_names "--help" =
      some { addr := 2, spec := defined_options[2] } := by decide
  simp [options_contains_at, h]

/-- The part of the help behaviour that holds in this model, in which the
queries to the file system answer without throwing: on every argv that parses
and selects the help option, `rmain` asks nothing of the file system, and it
returns `0` unless the echo option is selected as well and the echoed command
line is not a valid format string, in which case `std::format_error` leaves
`rmain`. -/
theorem help_asks_nothing_of_the_file_system (env : fs_env) (_args pos : List String)
    (opts : List (Nat × List String)) (pout : List String)
    (hparse : parse_command_line _args = .returned pos opts pout)
    (hhelp : options_contains_at opts "--help" = some true) :
    (∃ out, rmain env _args = .returned 0 out []) ∨
      (∃ out, rmain env _args = .threw "format_error" out [] ∧
        options_contains_at opts "--echo" = some true ∧
        format_plain (echo_string env _args) = none) := by
  simp only [rmain, hparse, rmain_after_parse, options_contains_at_verbose,
    options_contains_at_debug_ignored, options_contains_at_minimal]
  rw [options_contains_at_echo]
  cases he : (umap_find opts 1).isSome with
  | false =>
    simp only [rmain_help_install, hhelp]
    exact Or.inl ⟨_, rfl⟩
  | true =>
    simp only
    cases hf : format_plain (echo_string env _args) with
    | none =>
      simp only
      exact Or.inr ⟨_, rfl, by trivial, by trivial⟩
    | some text =>
      simp only [rmain_help_install, hhelp]
      exact Or.inl ⟨_, rfl⟩

/-- C14 (failing input). On `[prog, --help, --echo, X]` with `X` a single
opening brace, which parses and selects the help option, `rmain` does not
return `0`: the echo branch hands the echoed command line to `println` as a
format string and `std::format_error` leaves `rmain` before the help branch is
reached. -/
theorem help_with_echo_of_a_brace_throws :
    parse_command_line ["prog", "--help", "--echo", "\x7b"] =
        .returned ["\x7b"] [(2, []), (1, [])] [] ∧
      rmain example_env ["prog", "--help", "--echo", "\x7b"] =
        .threw "format_error" [] [] := by
  decide

theorem install_loop_actions (env : fs_env) (root : String) (vb dbg mn : Bool) :
    ∀ (vs : List fs_entry) (out : List String) (actions : List fs_action),
      (install_loop env root vb dbg mn vs out actions).2 =
        actions ++ vs.flatMap (fun v => (install_entry env root vb dbg mn v).2) := by
  intro vs
  induction vs with
  | nil => intro out actions; simp [install_loop]
  | cons v vs ih =>
    intro out actions
    simp only [install_loop, ih, List.flatMap_cons, List.append_assoc]

theorem install_entry_copies (env : fs_env) (root : String) (vb dbg mn : Bool) (v : fs_entry) :
    (install_entry env root vb dbg mn v).2.filter fs_action.is_copy =
      if (!v.is_directory && decide (v.extension = ".lua") &&
          !(mn && contains_substring v.filename ".doc")) = true then
        [.copy_file v.source_path (env.path_append root v.relative)]
      else [] := by
  unfold install_entry install_file
  cases hd : v.is_directory <;> cases hm : mn <;>
    cases hc : contains_substring v.filename ".doc" <;>
    by_cases he : v.extension = ".lua" <;>
    cases hs : starts_with v.filename "." <;>
    simp [he, hs, fs_action.is_copy]

theorem install_entries_copies (env : fs_env) (root : String) (vb dbg mn : Bool) :
    ∀ (vs : List fs_entry),
      (vs.flatMap (fun v => (install_entry env root vb dbg mn v).2)).filter fs_action.is_copy =
        (vs.filter (fun v => !v.is_directory && decide (v.extension = ".lua") &&
            !(mn && contains_substring v.filename ".doc"))).map
          (fun v => .copy_file v.source_path (env.path_append root v.relative)) := by
  intro vs
  induction vs with
  | nil => rfl
  | cons v vs ih =>
    rw [List.flatMap_cons, List.filter_append, ih, install_entry_copies, List.filter_cons]
    split <;> simp

/-- C17. File filter of the install step: on every run of `rmain` that parses
its argv, does not select help and returns, the calls of `fs::copy_file` are,
in the order of the traversal, exactly those for the visited elements that are
not directories, whose extension is `.lua`, and for which it is not the case
that minimal mode is selected and the file name contains `.doc`; the
destination is the install root with the relative path appended.  Neither the
verbose nor the debug-ignored flag occurs in this description. -/
theorem copies_are_the_filtered_lua_files (env : fs_env) (_args pos : List String)
    (opts : List (Nat × List String)) (pout : List String) (minimal : Bool)
    (status : Int) (out : List String) (actions : List fs_action)
    (hparse : parse_command_line _args = .returned pos opts pout)
    (hhelp : options_contains_at opts "--help" = some false)
    (hmin : options_contains_at opts "--minimal" = some minimal)
    (hrun : rmain env _args = .returned status out actions) :
    actions.filter fs_action.is_copy =
      (env.tree.filter (fun v => !v.is_directory && decide (v.extension = ".lua") &&
          !(minimal && contains_substring v.filename ".doc"))).map
        (fun v => .copy_file v.source_path
          (env.path_append (install_root env pos []).1 v.relative)) := by
  have hroot : ∀ o, (install_root env pos o).1 = (install_root env pos []).1 := by
    intro o
    cases pos with
    | nil => rfl
    | cons first more =>
      simp only [install_root]
      by_cases hx : env.path_exists (env.absolute first) = true
      · simp [hx]
      · simp [hx]
  rw [options_contains_at_minimal] at hmin
  simp only [Option.some.injEq] at hmin
  simp only [rmain, hparse, rmain_after_parse, options_contains_at_verbose,
    options_contains_at_debug_ignored, options_contains_at_minimal] at hrun
  rw [options_contains_at_echo] at hrun
  have key : ∀ o, rmain_help_install env opts (install_root env pos (pout.map println)).1
      (umap_find opts 3).isSome (umap_find opts 4).isSome (umap_find opts 0).isSome o =
      .returned status out actions →
      actions.filter fs_action.is_copy =
      (env.tree.filter (fun v => !v.is_directory && decide (v.extension = ".lua") &&
          !(minimal && contains_substring v.filename ".doc"))).map
        (fun v => .copy_file v.source_path
          (env.path_append (install_root env pos []).1 v.relative)) := by
    intro o h
    simp only [rmain_help_install, hhelp, run_result.returned.injEq] at h
    obtain ⟨-, -, h3⟩ := h
    rw [← h3, install_loop_actions, List.filter_append, install_entries_copies, hmin, hroot]
    simp [fs_action.is_copy]
  cases he : (umap_find opts 1).isSome with
  | false =>
    rw [he] at hrun
    exact key _ hrun
  | true =>
    rw [he] at hrun
    simp only at hrun
    cases hf : format_plain (echo_string env _args) with
    | none =>
      rw [hf] at hrun
      cases hrun
    | some text =>
      rw [hf] at hrun
      exact key _ hrun

theorem copies_are_the_filtered_lua_files_witness :
    rmain example_env ["prog", "-m", "-v", "out"] =
        .returned 0
          ["set install root to /cwd/out\n", "/src/lib -> /cwd/out/lib\n",
           "/src/lib/a.lua -> /cwd/out/lib/a.lua\n"]
          [.traverse "/src", .create_directory "/cwd/out/lib",
           .copy_file "/src/lib/a.lua" "/cwd/out/lib/a.lua"] ∧
      ([.traverse "/src", .create_directory "/cwd/out/lib",
          .copy_file "/src/lib/a.lua" "/cwd/out/lib/a.lua"] : List fs_action).filter
          fs_action.is_copy =
        (example_env.tree.filter (fun v => !v.is_directory && decide (v.extension = ".lua") &&
            !(true && contains_substring v.filename ".doc"))).map
          (fun v => .copy_file v.source_path
            (example_env.path_append (install_root example_env ["out"] []).1 v.relative)) :=
  ⟨by decide,
    copies_are_the_filtered_lua_files example_env ["prog", "-m", "-v", "out"] ["out"]
      [(0, []), (3, [])] [] true 0
      ["set install root to /cwd/out\n", "/src/lib -> /cwd/out/lib\n",
       "/src/lib/a.lua -> /cwd/out/lib/a.lua\n"]
      [.traverse "/src", .create_directory "/cwd/out/lib",
       .copy_file "/src/lib/a.lua" "/cwd/out/lib/a.lua"]
      (by decide) (by decide) (by decide) (by decide)⟩

end Installer
